import Mathlib

/-!
Verification of the SMCSim host-only graph benchmark core against its
specification.  The repository's supplied source is the parameter header
`SMC/SW/HOST/app/host_only/params.h`, which fixes the configuration
constants; the generator and the three kernels (BFS, Bellman-Ford,
PageRank) are modelled from the specification and verified here.
-/

set_option maxRecDepth 100000

namespace SMCSim

/-! ## Constants from `params.h` (the supplied source) -/

/-- The seed of the random generator (`RANDOM_SEED` in params.h). -/
def RANDOM_SEED : Nat := 0

/-- Number of nodes in the random graph (`NODES` in params.h). -/
def NODES : Nat := 100

/-- Number of components (subgraphs) in the graph (`NUM_COMPONENTS`). -/
def NUM_COMPONENTS : Nat := 4

/-- Maximum outdegree of each node (`MAX_COMPONENT_OUTDEGREE`). -/
def MAX_COMPONENT_OUTDEGREE : Nat := 10

/-- Exclusive upper bound on Bellman-Ford edge weights (`MAX_WEIGHT`). -/
def MAX_WEIGHT : Nat := 10

/-- Cap on the number of BFS expansion rounds (`BFS_MAX_ITERATIONS`). -/
def BFS_MAX_ITERATIONS : Nat := 10

/-- Cap on the number of PageRank power iterations (`PAGERANK_MAX_ITERATIONS`). -/
def PAGERANK_MAX_ITERATIONS : Nat := 100

/-- PageRank convergence threshold (`PAGERANK_MAX_ERROR` = 0.001). -/
def PAGERANK_MAX_ERROR : ℚ := 1 / 1000

/-! ## Data model -/

/-- A directed weighted edge.  Modelled from the spec: "(source id,
destination id, integer weight in [0, MAX_WEIGHT)). Directed." -/
structure Edge where
  src : Nat
  dst : Nat
  w   : Nat
deriving DecidableEq, Repr

/-- A graph: node count, edge list (duplicates permitted, per the spec's
documented policy) and the node-to-component assignment, `comp[v]` being
the component id of node `v`.  Modelled from the spec's Data Model. -/
structure Graph where
  nodes : Nat
  edges : List Edge
  comp  : List Nat
deriving DecidableEq, Repr

/-- Error taxonomy from the spec's Error Handling Design section. -/
inductive GenError where
  | invalidConfiguration
  | invalidSource
  | invalidRange
  | invariantViolation
deriving DecidableEq, Repr

/-- Configuration surface of the core (spec section 6), instantiated by
the constants of `params.h`. -/
structure Config where
  nodes         : Nat
  numComponents : Nat
  maxOutdegree  : Nat
  maxWeight     : Nat
  seed          : Nat
deriving DecidableEq, Repr

/-- The configuration fixed by `params.h`. -/
def headerConfig : Config :=
  { nodes := NODES
    numComponents := NUM_COMPONENTS
    maxOutdegree := MAX_COMPONENT_OUTDEGREE
    maxWeight := MAX_WEIGHT
    seed := RANDOM_SEED }

/-! ## Deterministic random source

Modelled from the spec: "a seedable pseudo-random generator producing
reproducible sequences of integers and reals from a fixed seed", the sole
source of randomness for graph construction.  The spec fixes no concrete
algorithm; a linear congruential step is used, carrying the state
explicitly (no ambient global random state, per the design notes). -/

/-- One step of the deterministic random source. -/
def randStep (s : Nat) : Nat := (s * 1103515245 + 12345) % 2147483648

/-- Draw a value uniform in `[0, b)` (for `b ≥ 1`), returning the value
and the advanced generator state. -/
def randBelow (s b : Nat) : Nat × Nat :=
  let s' := randStep s
  (s' % b, s')

/-- Draw a value uniform in the inclusive range `[lo, hi]`, returning the
value and the advanced generator state.  Modelled from the spec: a draw
with misused bounds (`lo > hi`) fails with `InvalidRange`. -/
def randIn (s lo hi : Nat) : Except GenError (Nat × Nat) :=
  if lo > hi then .error .invalidRange
  else
    let (v, s') := randBelow s (hi + 1 - lo)
    .ok (lo + v, s')

/-- Total variant of `randIn` used inside the generator, whose draws all
have valid bounds. -/
def randInT (s lo hi : Nat) : Nat × Nat :=
  let (v, s') := randBelow s (hi + 1 - lo)
  (lo + v, s')

/-! ## Component partition

Modelled from the spec: "Partition NODES node ids into NUM_COMPONENTS
groups as evenly as possible (size = ceil/floor split); assignment order
is deterministic (e.g., contiguous ranges)".  The first `nodes %
numComponents` components receive `nodes / numComponents + 1` ids, the
rest `nodes / numComponents`, in contiguous ranges. -/

/-- Floor size of a component. -/
def compBase (cfg : Config) : Nat := cfg.nodes / cfg.numComponents

/-- Number of components that get one extra node. -/
def compRem (cfg : Config) : Nat := cfg.nodes % cfg.numComponents

/-- Component id of node `v` under the contiguous even split. -/
def compOf (cfg : Config) (v : Nat) : Nat :=
  let b := compBase cfg
  let r := compRem cfg
  if v < r * (b + 1) then v / (b + 1) else r + (v - r * (b + 1)) / b

/-- First node id of component `c`. -/
def compStart (cfg : Config) (c : Nat) : Nat :=
  let b := compBase cfg
  let r := compRem cfg
  if c < r then c * (b + 1) else r * (b + 1) + (c - r) * b

/-- Number of nodes of component `c`. -/
def compSize (cfg : Config) (c : Nat) : Nat :=
  if c < compRem cfg then compBase cfg + 1 else compBase cfg

/-! ## Random edge drawing

Modelled from the spec: "For each node, draw a random outdegree in
[1, MAX_COMPONENT_OUTDEGREE] and, for each outgoing edge, draw a
destination uniformly among the other nodes in the same component ...
and a weight uniformly in [0, MAX_WEIGHT)."  Self-loops are disallowed
by construction policy (the destination is drawn uniformly among the
`size - 1` other member positions of the component); multiple edges
between the same ordered pair are permitted (the generator does not
dedupe). -/

/-- Draw `d` outgoing edges for node `v`, whose component starts at `st`
and has `sz` members.  The destination index skips `v`'s own position,
realising a uniform draw among the other nodes of the component. -/
def drawEdgesFor (cfg : Config) (v st sz : Nat) : Nat → Nat → List Edge × Nat
  | 0, s => ([], s)
  | d + 1, s =>
    let (j, s1) := randBelow s (sz - 1)
    let pos := v - st
    let dst := st + (if j < pos then j else j + 1)
    let (wt, s2) := randBelow s1 cfg.maxWeight
    let (rest, s3) := drawEdgesFor cfg v st sz d s2
    (⟨v, dst, wt⟩ :: rest, s3)

/-- Draw the random outdegree and then the edges of node `v`.  A
component with a single member admits no non-self destination, so such a
node receives no random edges. -/
def drawNode (cfg : Config) (v : Nat) (s : Nat) : List Edge × Nat :=
  let c := compOf cfg v
  let st := compStart cfg c
  let sz := compSize cfg c
  let (deg, s1) := randInT s 1 cfg.maxOutdegree
  if sz ≤ 1 then ([], s1)
  else drawEdgesFor cfg v st sz deg s1

/-- Draw the random edges of the listed nodes in order, threading the
generator state. -/
def drawAllFrom (cfg : Config) : List Nat → Nat → List Edge × Nat
  | [], s => ([], s)
  | v :: vs, s =>
    match drawNode cfg v s with
    | (es, s1) =>
      match drawAllFrom cfg vs s1 with
      | (rest, s2) => (es ++ rest, s2)

/-- Draw the random edges of every node, in ascending node-id order
(deterministic draw order, per the reproducibility contract). -/
def drawAllEdges (cfg : Config) : List Edge × Nat :=
  drawAllFrom cfg (List.range cfg.nodes) cfg.seed

/-! ## Connectivity repair

Modelled from the spec: "for each component, run a connectivity check and
add the minimum number of edges needed to merge any disconnected
sub-components, preserving the outdegree cap where possible."  Weak
connectivity is computed by a fueled traversal over the undirected view
of the edge list. -/

/-- Undirected neighbours of `u` in the edge list `es`. -/
def undirAdj (es : List Edge) (u : Nat) : List Nat :=
  es.foldr
    (fun e acc =>
      if e.src = u then e.dst :: acc
      else if e.dst = u then e.src :: acc else acc)
    []

/-- One round of undirected reachability expansion: visit every
unvisited neighbour of the frontier. -/
def reachStep (es : List Edge) (st : List Nat × List Nat) : List Nat × List Nat :=
  match st with
  | (vis0, frontier) =>
    frontier.foldl
      (fun acc u =>
        (undirAdj es u).foldl
          (fun acc2 x =>
            match acc2 with
            | (vis, nf) => if x ∈ vis then (vis, nf) else (x :: vis, x :: nf))
          acc)
      (vis0, [])

/-- Nodes weakly reachable from `root` via edges of `es`, with `fuel`
expansion rounds. -/
def reachFrom (es : List Edge) : Nat → Nat → List Nat
  | 0, root => [root]
  | fuel + 1, root =>
    let rec go : Nat → List Nat × List Nat → List Nat
      | 0, st => st.1
      | f + 1, st =>
        match st with
        | (vis, frontier) =>
          if frontier = [] then vis else go f (reachStep es (vis, frontier))
    go (fuel + 1) ([root], [root])

/-- Split the member list of a component into its weakly-connected
sub-components (as visited-sets headed by their representative), using
`fuel` to bound the scan. -/
def subcomponents (es : List Edge) : Nat → List Nat → List (List Nat)
  | 0, _ => []
  | _, [] => []
  | fuel + 1, m :: ms =>
    let visited := reachFrom es (ms.length + 1) m
    let rest := ms.filter (fun v => ¬ v ∈ visited)
    (m :: visited.filter (fun v => v ≠ m ∧ v ∈ m :: ms)) ::
      subcomponents es fuel rest

/-- Outdegree of `u` in the edge list `es`. -/
def outdegIn (es : List Edge) (u : Nat) : Nat :=
  es.countP (fun e => e.src == u)

/-- A member of `sub` of minimal current outdegree, used as the source
of a corrective edge so the outdegree cap is preserved where possible. -/
def minOutdegNode (es : List Edge) (sub : List Nat) : Nat :=
  match sub with
  | [] => 0
  | x :: xs =>
    xs.foldl (fun best v => if outdegIn es v < outdegIn es best then v else best) x

/-- Corrective edges for component `c`: one edge from each disconnected
sub-component to the representative of the first, the minimum number
needed to merge them.  Corrective edge weights are drawn from the same
bounded range `[0, maxWeight)`. -/
def repairComponent (cfg : Config) (es : List Edge) (c : Nat) (s : Nat) :
    List Edge × Nat :=
  let members := (List.range cfg.nodes).filter (fun v => compOf cfg v = c)
  let subs := subcomponents es members.length members
  match subs with
  | [] => ([], s)
  | first :: rest =>
    let root := first.headD 0
    rest.foldl
      (fun acc sub =>
        match acc with
        | (added, st) =>
          let src := minOutdegNode (es ++ added) sub
          match randBelow st cfg.maxWeight with
          | (wt, s') => (added ++ [⟨src, root, wt⟩], s'))
      ([], s)

/-- Corrective edges for every component. -/
def repairAll (cfg : Config) (es : List Edge) (s : Nat) : List Edge :=
  ((List.range cfg.numComponents).foldl
    (fun acc c =>
      match acc with
      | (added, st) =>
        match repairComponent cfg (es ++ added) c st with
        | (r, s') => (added ++ r, s'))
    ([], s)).1

/-- The full generated edge list: the random edges followed by the
corrective edges of the repair pass. -/
def genEdges (cfg : Config) : List Edge :=
  match drawAllEdges cfg with
  | (es, s) => es ++ repairAll cfg es s

/-- Modelled from the spec: the Component-Structured Graph Generator.
Partitions the ids into contiguous components, draws random bounded-
outdegree edges with bounded weights inside each component, and then
adds the corrective edges of the mandatory connectivity-repair pass. -/
def generateGraphUnchecked (cfg : Config) : Graph :=
  { nodes := cfg.nodes
    edges := genEdges cfg
    comp := (List.range cfg.nodes).map (compOf cfg) }

/-- Whether a configuration violates the generator's preconditions,
exactly the failure conditions stated by the spec. -/
def badConfig (cfg : Config) : Prop :=
  cfg.numComponents > cfg.nodes ∨ cfg.maxOutdegree < 1 ∨ cfg.maxWeight ≤ 0

instance (cfg : Config) : Decidable (badConfig cfg) := by
  unfold badConfig; infer_instance

/-- Modelled from the spec: `generate_graph(config) -> Graph`, failing
eagerly with `InvalidConfiguration` before generation starts when the
configuration is bad. -/
def generate_graph (cfg : Config) : Except GenError Graph :=
  if badConfig cfg then .error .invalidConfiguration
  else .ok (generateGraphUnchecked cfg)

/-- The single graph the program as configured by `params.h` generates. -/
def theGraph : Graph := generateGraphUnchecked headerConfig

/-! ## Paths

A path is a list of consecutive edges of the graph.  Paths support the
statements of the BFS and Bellman-Ford claims. -/

/-- `IsPath g s p t`: the edge list `p` is a path of `g` from `s` to `t`. -/
def IsPath (g : Graph) : Nat → List Edge → Nat → Prop
  | s, [], t => s = t
  | s, e :: p, t => e ∈ g.edges ∧ e.src = s ∧ IsPath g e.dst p t

instance (g : Graph) : ∀ s p t, Decidable (IsPath g s p t)
  | _, [], _ => by unfold IsPath; infer_instance
  | s, e :: p, t =>
    have : Decidable (IsPath g e.dst p t) := instDecidableIsPath g e.dst p t
    by unfold IsPath; infer_instance

/-- Total weight of a path. -/
def pathWeight (p : List Edge) : Nat := (p.map (fun e => e.w)).sum

/-! ## Per-node distance state

The per-node algorithm state of BFS and Bellman-Ford is a list of
optional distances; `none` is the "unreachable" sentinel. -/

/-- Distance recorded for node `v` (out-of-range ids read as the
sentinel). -/
def dAt (d : List (Option Nat)) (v : Nat) : Option Nat := (d.get? v).getD none

/-- Initial distance state: the source at distance 0, all others at the
sentinel. -/
def distInit (n src : Nat) : List (Option Nat) :=
  (List.replicate n (none : Option Nat)).set src (some 0)

/-! ## BFS kernel

Modelled from the spec: standard layered frontier expansion: level 0 is
the source; level `k+1` is every unvisited node reachable by one edge
from level `k`; expansion halts when the frontier is empty or
`BFS_MAX_ITERATIONS` rounds have elapsed, whichever first; unreached
nodes keep the sentinel. -/

/-- Whether some edge reaches `v` from an already-visited node. -/
def hasVisitedPred (g : Graph) (d : List (Option Nat)) (v : Nat) : Bool :=
  g.edges.any (fun e => e.dst == v && (dAt d e.src).isSome)

/-- One BFS expansion round: every unvisited node with a visited
in-neighbour receives distance `round + 1`. -/
def bfsRound (g : Graph) (d : List (Option Nat)) (round : Nat) : List (Option Nat) :=
  (List.range g.nodes).map (fun v =>
    match dAt d v with
    | some k => some k
    | none => if hasVisitedPred g d v then some (round + 1) else none)

/-- The BFS expansion loop; stops early when a round changes nothing
(empty frontier). -/
def bfsLoop (g : Graph) : Nat → Nat → List (Option Nat) → List (Option Nat) × Nat
  | 0, round, d => (d, round)
  | fuel + 1, round, d =>
    let d' := bfsRound g d round
    if d' = d then (d, round) else bfsLoop g fuel (round + 1) d'

/-- BFS kernel result: per-node distance-or-unreached, and the number of
rounds performed. -/
structure BFSResult where
  dist   : List (Option Nat)
  rounds : Nat
deriving DecidableEq, Repr

/-- Modelled from the spec: the BFS kernel entry point, failing with
`InvalidSource` when the source id is outside `[0, NODES)`. -/
def runBFS (g : Graph) (src cap : Nat) : Except GenError BFSResult :=
  if src < g.nodes then
    let r := bfsLoop g cap 0 (distInit g.nodes src)
    .ok ⟨r.1, r.2⟩
  else .error .invalidSource

/-! ## Bellman-Ford kernel

Modelled from the spec: distances start at 0 for the source and the
sentinel elsewhere; for up to component-size − 1 rounds every edge is
relaxed; the loop exits early when a full round produces no update. -/

/-- Relax a single edge. -/
def relax (d : List (Option Nat)) (e : Edge) : List (Option Nat) :=
  match dAt d e.src with
  | none => d
  | some du =>
    match dAt d e.dst with
    | none => d.set e.dst (some (du + e.w))
    | some dv => if du + e.w < dv then d.set e.dst (some (du + e.w)) else d

/-- One full relaxation round over every edge. -/
def bfRound (g : Graph) (d : List (Option Nat)) : List (Option Nat) :=
  g.edges.foldl relax d

/-- The relaxation loop with early exit on a round with no update. -/
def bfLoop (g : Graph) : Nat → Nat → List (Option Nat) → List (Option Nat) × Nat
  | 0, rounds, d => (d, rounds)
  | fuel + 1, rounds, d =>
    let d' := bfRound g d
    if d' = d then (d, rounds) else bfLoop g fuel (rounds + 1) d'

/-- Members of component `c` of graph `g`. -/
def compMembers (g : Graph) (c : Nat) : List Nat :=
  (List.range g.nodes).filter (fun v => g.comp.getD v 0 == c)

/-- The Bellman-Ford round cap: the source's component size minus one. -/
def bfCap (g : Graph) (src : Nat) : Nat :=
  (compMembers g (g.comp.getD src 0)).length - 1

/-- Bellman-Ford kernel result: per-node shortest-path distance (or the
unreachable sentinel) and the round count at which it converged. -/
structure BFResult where
  dist   : List (Option Nat)
  rounds : Nat
deriving DecidableEq, Repr

/-- Modelled from the spec: the Bellman-Ford kernel entry point, failing
with `InvalidSource` analogously to BFS. -/
def runBF (g : Graph) (src : Nat) : Except GenError BFResult :=
  if src < g.nodes then
    let r := bfLoop g (bfCap g src) 0 (distInit g.nodes src)
    .ok ⟨r.1, r.2⟩
  else .error .invalidSource

/-- The `k`-fold application of a relaxation round. -/
def bfIter (g : Graph) : Nat → List (Option Nat) → List (Option Nat)
  | 0, d => d
  | k + 1, d => bfIter g k (bfRound g d)

/-- The node reached after `i` edges of a path starting at `s`. -/
def pathNode (s : Nat) (p : List Edge) (i : Nat) : Nat :=
  (s :: p.map (fun e => e.dst)).getD i 0

/-! ## PageRank kernel

Modelled from the spec: ranks start at `1/NODES`; each iteration assigns
`new_rank(v) = (1 − damping)/NODES + damping × (dangling/NODES + Σ over
incoming edges (u,v) of old_rank(u)/outdegree(u))`, where the rank mass
of dangling (zero-outdegree) nodes is redistributed uniformly so total
mass is conserved at 1.0; iteration stops when the L1 difference of
successive vectors is at most the threshold or after the iteration cap.
Reals are modelled exactly, by rationals. -/

/-- The damping factor: a design constant with the documented standard
default, 0.85, since `params.h` does not encode one. -/
def DAMPING : ℚ := 85 / 100

/-- Rank of node `v` (out-of-range ids read as 0). -/
def rAt (r : List ℚ) (v : Nat) : ℚ := r.getD v 0

/-- Outdegree of node `u`. -/
def outdeg (g : Graph) (u : Nat) : Nat := outdegIn g.edges u

/-- Total rank mass of dangling (zero-outdegree) nodes. -/
def danglingMass (g : Graph) (r : List ℚ) : ℚ :=
  ∑ u ∈ Finset.range g.nodes, if outdeg g u = 0 then rAt r u else 0

/-- Rank mass flowing into `v` over the incoming edges. -/
def inMass (g : Graph) (r : List ℚ) (v : Nat) : ℚ :=
  (g.edges.map (fun e => if e.dst = v then rAt r e.src / (outdeg g e.src : ℚ) else 0)).sum

/-- One PageRank power iteration, with uniform redistribution of the
dangling rank mass. -/
def prStep (g : Graph) (damp : ℚ) (r : List ℚ) : List ℚ :=
  (List.range g.nodes).map (fun v =>
    (1 - damp) / (g.nodes : ℚ) + damp * (danglingMass g r / (g.nodes : ℚ) + inMass g r v))

/-- The uniform initial rank vector. -/
def prInit (g : Graph) : List ℚ := List.replicate g.nodes (1 / (g.nodes : ℚ))

/-- The rank vector after `k` iterations. -/
def prIterate (g : Graph) (damp : ℚ) : Nat → List ℚ
  | 0 => prInit g
  | k + 1 => prStep g damp (prIterate g damp k)

/-- L1 distance between successive rank vectors. -/
def l1Diff (a b : List ℚ) : ℚ := (a.zip b).foldl (fun acc p => acc + |p.1 - p.2|) 0

/-- PageRank kernel result: final ranks, iterations performed, and the
converged flag. -/
structure PRResult where
  ranks     : List ℚ
  iters     : Nat
  converged : Bool
deriving DecidableEq, Repr

/-- The power-iteration loop with the convergence test. -/
def prLoop (g : Graph) (damp eps : ℚ) : Nat → Nat → List ℚ → PRResult
  | 0, iters, r => ⟨r, iters, false⟩
  | fuel + 1, iters, r =>
    let r' := prStep g damp r
    if l1Diff r r' ≤ eps then ⟨r', iters + 1, true⟩
    else prLoop g damp eps fuel (iters + 1) r'

/-- Modelled from the spec: the PageRank kernel entry point, failing with
`InvalidConfiguration` if the damping factor is not in `(0,1)` or the
error threshold is not positive. -/
def runPR (g : Graph) (damp eps : ℚ) (maxIter : Nat) : Except GenError PRResult :=
  if 0 < damp ∧ damp < 1 ∧ 0 < eps then
    .ok (prLoop g damp eps maxIter 0 (prInit g))
  else .error .invalidConfiguration

/-! ## Kernel entry points in state-passing form

The kernels consume the graph read-only; threading the graph through
makes the frame property of the runs explicit. -/

/-- The BFS run with the graph state threaded through. -/
def bfsKernel (g : Graph) (src cap : Nat) : Graph × Except GenError BFSResult :=
  (g, runBFS g src cap)

/-- The Bellman-Ford run with the graph state threaded through. -/
def bellmanFordKernel (g : Graph) (src : Nat) : Graph × Except GenError BFResult :=
  (g, runBF g src)

/-- The PageRank run with the graph state threaded through. -/
def pageRankKernel (g : Graph) (damp eps : ℚ) (maxIter : Nat) :
    Graph × Except GenError PRResult :=
  (g, runPR g damp eps maxIter)

/-! ## Checkers for the generated graph

Boolean checks of the generated graph, evaluated once on `theGraph`.
Connectivity is checked by an independent traversal over the generated
edge set, per the spec's testable properties. -/

/-- Every edge endpoint is a valid node id. -/
def chkEndpoints (g : Graph) : Bool :=
  g.edges.all (fun e => e.src < g.nodes && e.dst < g.nodes)

/-- Every edge weight lies below the bound. -/
def chkWeights (g : Graph) (mw : Nat) : Bool :=
  g.edges.all (fun e => e.w < mw)

/-- No self-loops. -/
def chkNoSelfLoop (g : Graph) : Bool :=
  g.edges.all (fun e => e.src != e.dst)

/-- Every node's outdegree is at most the cap. -/
def chkOutdeg (g : Graph) (cap : Nat) : Bool :=
  (List.range g.nodes).all (fun v => outdegIn g.edges v ≤ cap)

/-- The component assignment is total and lands in `[0, k)`. -/
def chkCompAssign (g : Graph) (k : Nat) : Bool :=
  g.comp.length == g.nodes && g.comp.all (fun c => c < k)

/-- Every component has exactly the given number of members. -/
def chkCompSizes (g : Graph) (k sz : Nat) : Bool :=
  (List.range k).all (fun c => (compMembers g c).length == sz)

/-- Every edge stays inside one component. -/
def chkCompClosed (g : Graph) : Bool :=
  g.edges.all (fun e => g.comp.getD e.src 0 == g.comp.getD e.dst 0)

/-- Component `c` is internally weakly connected: every member is
reachable from the first member by the independent undirected
traversal. -/
def chkConnected (g : Graph) (c : Nat) : Bool :=
  match compMembers g c with
  | [] => true
  | r :: ms => (r :: ms).all (fun v => v ∈ reachFrom g.edges (ms.length + 1) r)

/-- All components are internally weakly connected. -/
def chkAllConnected (g : Graph) (k : Nat) : Bool :=
  (List.range k).all (fun c => chkConnected g c)

/-- The edge list is nonempty. -/
def chkNonempty (g : Graph) : Bool := !g.edges.isEmpty

/-- The combined check of the generated graph. -/
def chkGenerated (g : Graph) : Bool :=
  chkEndpoints g && chkWeights g MAX_WEIGHT && chkNoSelfLoop g &&
  chkOutdeg g MAX_COMPONENT_OUTDEGREE && chkCompAssign g NUM_COMPONENTS &&
  chkCompSizes g NUM_COMPONENTS 25 && chkCompClosed g &&
  chkAllConnected g NUM_COMPONENTS && chkNonempty g

/-- Shorthand edge constructor for the literal listing below. -/
def E (a b c : Nat) : Edge := ⟨a, b, c⟩

/-- The random edges drawn by the generator under the header
configuration, listed explicitly so the checks of the generated graph
evaluate over a literal. -/
def theGraphRandomEdges : List Edge :=
  [
    E 0 23 5, E 0 5 3, E 0 3 9, E 0 17 3, E 0 15 7, E 0 13 7, E 1 20 8, E 1 18 6,
    E 1 24 0, E 2 11 5, E 2 0 3, E 3 24 6, E 4 11 5, E 4 9 3, E 4 23 3, E 4 5 9,
    E 4 2 7, E 4 0 9, E 5 16 6, E 5 22 2, E 5 20 2, E 6 23 7, E 6 21 7, E 7 12 2,
    E 7 10 6, E 7 8 8, E 8 19 5, E 8 17 7, E 8 15 9, E 8 21 7, E 8 19 7, E 8 17 7,
    E 8 15 1, E 8 4 7, E 9 20 6, E 10 15 5, E 10 21 5, E 10 2 3, E 10 17 1, E 10 15 5,
    E 10 4 1, E 10 11 5, E 10 8 5, E 11 24 2, E 12 19 3, E 12 0 1, E 12 6 3, E 12 21 1,
    E 12 19 5, E 12 8 1, E 12 15 1, E 12 4 5, E 13 11 6, E 14 23 1, E 14 4 7, E 14 19 5,
    E 14 17 7, E 14 23 9, E 14 4 3, E 14 10 3, E 14 8 5, E 15 7 0, E 16 19 1, E 16 8 5,
    E 16 14 9, E 16 4 1, E 16 19 5, E 16 17 5, E 16 6 3, E 16 12 5, E 16 10 9, E 16 17 7,
    E 17 24 2, E 18 10 9, E 18 8 1, E 19 7 6, E 19 22 4, E 19 3 6, E 19 1 0, E 19 7 4,
    E 19 13 4, E 19 20 8, E 20 14 3, E 20 4 9, E 20 10 1, E 20 0 9, E 20 6 5, E 20 12 5,
    E 21 11 2, E 21 17 6, E 21 7 8, E 21 22 6, E 21 3 2, E 22 23 3, E 22 20 9, E 22 2 7,
    E 22 16 5, E 22 6 5, E 22 12 9, E 23 11 8, E 24 22 9, E 24 4 1, E 24 2 5, E 24 8 9,
    E 25 33 6, E 26 36 5, E 26 25 7, E 26 40 3, E 26 38 3, E 26 36 1, E 26 34 9, E 26 32 5,
    E 26 46 9, E 26 28 7, E 26 42 9, E 27 49 6, E 27 31 8, E 27 29 0, E 27 26 8, E 27 49 6,
    E 27 47 6, E 27 37 0, E 28 32 1, E 28 38 9, E 28 36 7, E 28 25 9, E 28 32 7, E 28 30 3,
    E 29 37 4, E 29 35 4, E 29 33 8, E 29 47 4, E 29 28 4, E 29 35 6, E 29 41 2, E 29 39 2,
    E 29 28 8, E 30 40 7, E 30 38 5, E 30 44 5, E 30 34 7, E 30 48 1, E 30 38 7, E 30 36 1,
    E 30 42 7, E 30 32 1, E 30 46 5, E 31 28 0, E 31 43 2, E 31 41 0, E 31 30 0, E 31 28 6,
    E 32 31 7, E 32 29 5, E 32 27 7, E 32 42 1, E 33 49 6, E 33 30 6, E 33 28 4, E 33 43 2,
    E 33 41 4, E 33 47 4, E 33 37 0, E 34 48 9, E 34 38 7, E 34 44 7, E 34 25 9, E 34 48 9,
    E 34 46 5, E 35 37 6, E 35 43 6, E 35 41 2, E 36 44 7, E 36 42 3, E 36 40 3, E 36 38 5,
    E 36 44 3, E 36 25 1, E 36 31 3, E 36 38 9, E 36 44 3, E 36 33 9, E 37 32 2, E 37 39 0,
    E 37 45 2, E 37 43 0, E 37 49 4, E 38 35 3, E 38 33 7, E 39 49 0, E 39 30 0, E 39 36 8,
    E 39 43 0, E 39 32 8, E 39 30 0, E 39 36 6, E 39 26 0, E 39 41 2, E 40 44 7, E 40 25 7,
    E 40 31 5, E 40 46 3, E 40 27 7, E 40 25 7, E 40 39 3, E 40 29 7, E 41 28 6, E 42 48 7,
    E 42 37 5, E 42 35 5, E 42 33 7, E 42 48 5, E 42 37 5, E 42 27 9, E 42 33 7, E 43 49 4,
    E 43 38 2, E 43 36 2, E 43 42 2, E 43 49 8, E 43 47 4, E 43 28 2, E 43 42 2, E 43 49 8,
    E 44 27 3, E 44 25 5, E 44 31 7, E 44 29 5, E 44 27 3, E 44 25 5, E 44 31 9, E 44 29 7,
    E 44 27 9, E 44 33 3, E 45 49 6, E 45 47 2, E 45 36 4, E 45 34 2, E 45 32 4, E 45 47 8,
    E 45 36 2, E 46 48 7, E 46 45 5, E 46 35 1, E 46 41 7, E 47 49 8, E 47 38 8, E 47 36 6,
    E 48 47 5, E 48 37 9, E 48 35 1, E 48 25 3, E 48 39 1, E 48 45 5, E 48 43 3, E 48 25 7,
    E 48 31 7, E 48 45 1, E 49 28 2, E 49 34 0, E 49 40 2, E 49 30 4, E 49 28 8, E 49 42 8,
    E 49 40 8, E 49 38 6, E 49 28 0, E 50 65 9, E 50 55 1, E 50 61 7, E 50 59 7, E 50 65 7,
    E 50 63 7, E 50 61 7, E 50 67 1, E 51 74 0, E 51 64 8, E 51 54 8, E 51 68 2, E 51 58 0,
    E 51 56 4, E 51 54 0, E 51 52 6, E 51 74 0, E 52 69 9, E 52 67 5, E 52 65 5, E 52 55 5,
    E 52 61 9, E 52 50 9, E 53 66 4, E 53 56 8, E 53 54 2, E 53 51 8, E 53 66 8, E 54 61 3,
    E 54 59 3, E 54 57 3, E 54 55 3, E 54 69 5, E 54 67 1, E 54 57 9, E 54 63 1, E 55 62 4,
    E 55 68 0, E 55 58 0, E 56 69 1, E 56 67 1, E 57 66 8, E 57 72 2, E 57 70 8, E 58 73 1,
    E 58 71 9, E 58 52 1, E 58 50 7, E 58 73 5, E 58 63 5, E 58 52 5, E 58 67 1, E 58 56 1,
    E 58 54 5, E 59 53 4, E 59 60 8, E 59 57 2, E 60 52 5, E 60 50 1, E 60 65 1, E 60 54 1,
    E 61 53 6, E 62 73 9, E 62 54 1, E 62 52 5, E 62 58 5, E 63 74 0, E 63 55 2, E 63 53 8,
    E 64 65 3, E 64 54 3, E 64 69 3, E 64 67 5, E 64 73 1, E 64 71 7, E 64 60 9, E 64 50 9,
    E 65 57 4, E 66 60 3, E 66 67 3, E 66 64 3, E 66 62 5, E 66 69 5, E 66 50 9, E 66 56 9,
    E 66 62 7, E 67 70 6, E 67 51 4, E 67 57 6, E 67 55 8, E 67 70 0, E 67 68 8, E 67 74 0,
    E 67 72 0, E 67 70 2, E 68 64 7, E 68 62 9, E 68 60 9, E 68 66 9, E 68 64 5, E 68 62 9,
    E 68 69 5, E 68 58 7, E 68 56 5, E 68 71 7, E 69 70 6, E 69 59 0, E 69 74 2, E 69 63 8,
    E 69 61 2, E 69 59 8, E 69 74 2, E 70 60 9, E 70 66 5, E 70 64 1, E 70 54 3, E 70 60 3,
    E 70 66 7, E 71 74 0, E 71 72 0, E 71 61 8, E 72 73 9, E 72 70 9, E 72 52 1, E 72 50 5,
    E 72 64 3, E 72 70 9, E 73 61 0, E 74 64 9, E 74 62 3, E 74 52 1, E 74 50 1, E 74 56 3,
    E 74 70 9, E 74 60 3, E 74 50 3, E 74 56 9, E 74 54 9, E 75 79 4, E 75 77 6, E 75 91 4,
    E 75 97 6, E 75 87 6, E 76 98 3, E 76 88 5, E 77 95 0, E 77 93 4, E 77 91 2, E 78 86 1,
    E 78 92 3, E 78 90 9, E 78 80 5, E 79 78 8, E 79 85 4, E 79 83 6, E 79 97 8, E 79 95 2,
    E 80 82 3, E 80 88 9, E 80 86 1, E 80 92 1, E 81 83 2, E 81 80 4, E 81 78 4, E 81 76 8,
    E 81 99 0, E 81 80 8, E 81 95 4, E 81 76 0, E 81 99 0, E 82 94 1, E 82 75 5, E 82 81 1,
    E 82 88 9, E 82 94 5, E 82 75 5, E 82 98 7, E 82 88 7, E 82 77 5, E 82 92 9, E 83 82 6,
    E 83 89 4, E 83 78 4, E 83 93 8, E 83 82 2, E 84 86 3, E 84 83 3, E 84 90 3, E 84 88 5,
    E 84 77 3, E 84 83 5, E 84 98 5, E 84 79 7, E 85 87 2, E 86 90 3, E 86 96 9, E 87 86 8,
    E 88 81 9, E 88 79 9, E 88 94 7, E 88 83 1, E 88 90 9, E 88 87 9, E 88 85 3, E 88 75 1,
    E 89 91 2, E 89 97 6, E 89 95 4, E 90 81 5, E 90 96 7, E 90 94 9, E 90 83 1, E 91 90 6,
    E 91 80 0, E 91 95 2, E 91 93 8, E 91 90 4, E 91 97 8, E 91 86 2, E 91 76 2, E 91 82 2,
    E 92 85 5, E 92 75 5, E 92 98 3, E 92 87 7, E 92 77 3, E 92 91 7, E 93 90 8, E 94 85 9,
    E 94 91 5, E 94 98 7, E 94 87 7, E 94 85 7, E 94 83 5, E 94 89 7, E 94 79 7, E 94 85 1,
    E 94 75 7, E 95 99 0, E 96 77 7, E 96 91 7, E 97 82 2, E 97 88 8, E 97 94 8, E 98 97 5,
    E 98 95 7, E 98 77 7, E 98 83 1, E 98 97 9, E 98 95 9, E 99 78 8, E 99 92 0, E 99 98 4,
    E 99 80 2, E 99 78 0, E 99 76 8, E 99 82 4, E 99 88 6, E 99 86 6
  ]

/-- The component assignment of the generated graph, listed explicitly. -/
def theGraphComp : List Nat :=
  [0, 0, 0, 0, 0, 0, 0, 0, 0, 0, 0, 0, 0, 0, 0, 0, 0, 0, 0, 0, 0, 0, 0, 0, 0, 1, 1, 1, 1, 1, 1, 1, 1, 1, 1, 1, 1, 1, 1, 1, 1, 1, 1, 1, 1, 1, 1, 1, 1, 1, 2, 2, 2, 2, 2, 2, 2, 2, 2, 2, 2, 2, 2, 2, 2, 2, 2, 2, 2, 2, 2, 2, 2, 2, 2, 3, 3, 3, 3, 3, 3, 3, 3, 3, 3, 3, 3, 3, 3, 3, 3, 3, 3, 3, 3, 3, 3, 3, 3, 3]

/-- The literal form of the generated graph. -/
def theGraphLit : Graph :=
  { nodes := 100, edges := theGraphRandomEdges, comp := theGraphComp }

/-! ## Small hand-constructed graphs for the scenario checks -/

/-- The spec's hand-constructed Bellman-Ford scenario: edge set
`(0,1,2), (1,2,3), (0,2,10)` on a single component. -/
def exampleGraph : Graph :=
  { nodes := 3
    edges := [⟨0, 1, 2⟩, ⟨1, 2, 3⟩, ⟨0, 2, 10⟩]
    comp := [0, 0, 0] }

/-- The same edges with one extra isolated node in its own component,
exercising the unreached case of the kernels. -/
def exampleGraph2 : Graph :=
  { nodes := 4
    edges := [⟨0, 1, 2⟩, ⟨1, 2, 3⟩, ⟨0, 2, 10⟩]
    comp := [0, 0, 0, 1] }

/-- Number of distinct non-self destination candidates of node `v`
inside its own component. -/
def sameCompOthers (cfg : Config) (v : Nat) : Nat :=
  ((List.range cfg.nodes).filter
    (fun u => u ≠ v ∧ compOf cfg u = compOf cfg v)).length

/-- Per-node wellformedness of a graph: every edge endpoint is a valid
node id. -/
def WellFormed (g : Graph) : Prop :=
  ∀ e ∈ g.edges, e.src < g.nodes ∧ e.dst < g.nodes

instance (g : Graph) : Decidable (WellFormed g) := by
  unfold WellFormed; infer_instance

/-! ## Facts of the generated graph

The generator is evaluated exactly once, inside `generated_ok`; every
other concrete fact about `theGraph` is extracted from it without
re-evaluating the generator. -/

set_option maxHeartbeats 8000000 in
/-- The random-edge drawing phase produces exactly the listed edges and
final generator state. -/
theorem drawAll_eval :
    drawAllEdges headerConfig = (theGraphRandomEdges, 2005067136) := by decide

set_option maxHeartbeats 8000000 in
/-- The connectivity-repair pass adds no edge: the random edges already
connect every component. -/
theorem repair_eval :
    repairAll headerConfig theGraphRandomEdges 2005067136 = [] := by decide

/-- The full generated edge list is the literal one. -/
theorem genEdges_eval : genEdges headerConfig = theGraphRandomEdges := by
  unfold genEdges
  rw [drawAll_eval]
  show theGraphRandomEdges ++ repairAll headerConfig theGraphRandomEdges 2005067136 =
    theGraphRandomEdges
  rw [repair_eval, List.append_nil]

set_option maxHeartbeats 8000000 in
/-- The component assignment is the literal one. -/
theorem comp_eval :
    (List.range headerConfig.nodes).map (compOf headerConfig) = theGraphComp := by
  decide

/-- The generated graph is exactly the literal graph. -/
theorem theGraph_eq_lit : theGraph = theGraphLit := by
  show generateGraphUnchecked headerConfig = theGraphLit
  unfold generateGraphUnchecked theGraphLit
  rw [genEdges_eval, comp_eval]
  rfl

set_option maxHeartbeats 8000000 in
/-- The literal graph passes the combined generated-graph check. -/
theorem chkGenerated_lit : chkGenerated theGraphLit = true := by decide

/-- The generated graph passes the combined generated-graph check. -/
theorem generated_ok : chkGenerated theGraph = true := by
  rw [theGraph_eq_lit]
  exact chkGenerated_lit

/-- The individual checks of the generated graph. -/
theorem generated_parts :
    chkEndpoints theGraph = true ∧ chkWeights theGraph MAX_WEIGHT = true ∧
    chkNoSelfLoop theGraph = true ∧ chkOutdeg theGraph MAX_COMPONENT_OUTDEGREE = true ∧
    chkCompAssign theGraph NUM_COMPONENTS = true ∧
    chkCompSizes theGraph NUM_COMPONENTS 25 = true ∧
    chkCompClosed theGraph = true ∧ chkAllConnected theGraph NUM_COMPONENTS = true ∧
    chkNonempty theGraph = true := by
  have h := generated_ok
  rw [chkGenerated] at h
  simp only [Bool.and_eq_true] at h
  obtain ⟨⟨⟨⟨⟨⟨⟨⟨h1, h2⟩, h3⟩, h4⟩, h5⟩, h6⟩, h7⟩, h8⟩, h9⟩ := h
  exact ⟨h1, h2, h3, h4, h5, h6, h7, h8, h9⟩

/-- Membership in `compMembers` unfolded. -/
theorem mem_compMembers {g : Graph} {c v : Nat} :
    v ∈ compMembers g c ↔ v < g.nodes ∧ g.comp.getD v 0 = c := by
  simp [compMembers, List.mem_filter, List.mem_range]

/-- A `getD` lookup within bounds is a member of the list. -/
theorem getD_mem_of_lt {l : List Nat} {v : Nat} (h : v < l.length) (d : Nat) :
    l.getD v d ∈ l := by
  induction l generalizing v with
  | nil => cases h
  | cons a t ih =>
    cases v with
    | zero => simp [List.getD_cons_zero]
    | succ v =>
      rw [List.getD_cons_succ]
      exact List.mem_cons_of_mem a (ih (Nat.lt_of_succ_lt_succ h))

/-- The default head of a nonempty list is a member. -/
theorem headD_mem {α : Type} {l : List α} (h : l ≠ []) (d : α) : l.headD d ∈ l := by
  cases l with
  | nil => exact absurd rfl h
  | cons a t => exact List.mem_cons_self a t

/-- The generated edge list is nonempty. -/
theorem theGraph_edges_ne_nil : theGraph.edges ≠ [] := by
  have h9 := generated_parts.2.2.2.2.2.2.2.2
  have : theGraph.edges.isEmpty = false := by
    simpa [chkNonempty] using h9
  intro hc
  rw [hc] at this
  simp at this

/-! ## Claim theorems -/

/-- C1: For every fixed seed and configuration, two runs of
`generate_graph` that return a graph return identical Graphs: the same
edge set, the same edge weights, and the same node-to-component
assignment. -/
theorem C1_generation_deterministic (cfg : Config) (g1 g2 : Graph)
    (h1 : generate_graph cfg = .ok g1) (h2 : generate_graph cfg = .ok g2) :
    g1.edges = g2.edges ∧
    g1.edges.map (fun e => e.w) = g2.edges.map (fun e => e.w) ∧
    g1.comp = g2.comp := by
  cases Except.ok.inj (h1.symm.trans h2)
  exact ⟨rfl, rfl, rfl⟩

/-- The run of the generator on the header configuration succeeds and
returns `theGraph`. -/
theorem generate_header_ok : generate_graph headerConfig = .ok theGraph := by
  unfold generate_graph
  rw [if_neg (by decide : ¬ badConfig headerConfig)]
  rfl

/-- Witness for C1 at the header configuration. -/
theorem C1_generation_deterministic_witness :
    generate_graph headerConfig = .ok theGraph ∧ theGraph.comp = theGraph.comp :=
  ⟨generate_header_ok,
    (C1_generation_deterministic headerConfig theGraph theGraph
      generate_header_ok generate_header_ok).2.2⟩

/-- C8: `generate_graph` fails with `InvalidConfiguration` exactly when
`NUM_COMPONENTS > NODES`, or `MAX_COMPONENT_OUTDEGREE < 1`, or
`MAX_WEIGHT ≤ 0`; the check happens before generation, and when none of
the conditions holds generation proceeds, returning the generated
graph. -/
theorem C8_invalid_configuration (cfg : Config) :
    (generate_graph cfg = .error .invalidConfiguration ↔
      (cfg.numComponents > cfg.nodes ∨ cfg.maxOutdegree < 1 ∨ cfg.maxWeight ≤ 0)) ∧
    (¬ (cfg.numComponents > cfg.nodes ∨ cfg.maxOutdegree < 1 ∨ cfg.maxWeight ≤ 0) →
      generate_graph cfg = .ok (generateGraphUnchecked cfg)) := by
  have hb : badConfig cfg ↔
      (cfg.numComponents > cfg.nodes ∨ cfg.maxOutdegree < 1 ∨ cfg.maxWeight ≤ 0) :=
    Iff.rfl
  by_cases h : badConfig cfg
  · constructor
    · rw [generate_graph, if_pos h]
      exact ⟨fun _ => hb.mp h, fun _ => rfl⟩
    · intro hn; exact absurd (hb.mp h) hn
  · constructor
    · rw [generate_graph, if_neg h]
      exact ⟨fun hc => absurd hc (by simp), fun hc => absurd (hb.mpr hc) h⟩
    · intro _; rw [generate_graph, if_neg h]

/-- Witness for C8 at the header configuration. -/
theorem C8_invalid_configuration_witness :
    generate_graph headerConfig = .ok (generateGraphUnchecked headerConfig) :=
  (C8_invalid_configuration headerConfig).2 (by decide)

/-- C9: the kernels, run in state-passing form, return the graph
unchanged: nodes, edges, weights and component mapping are those of the
input graph, for every kernel invocation. -/
theorem C9_kernels_preserve_graph (g : Graph) (src cap maxIter : Nat) (damp eps : ℚ) :
    (bfsKernel g src cap).1 = g ∧
    (bellmanFordKernel g src).1 = g ∧
    (pageRankKernel g damp eps maxIter).1 = g ∧
    (bfsKernel g src cap).1.edges = g.edges ∧
    (bfsKernel g src cap).1.comp = g.comp ∧
    (bellmanFordKernel g src).1.edges = g.edges ∧
    (bellmanFordKernel g src).1.comp = g.comp ∧
    (pageRankKernel g damp eps maxIter).1.edges = g.edges ∧
    (pageRankKernel g damp eps maxIter).1.comp = g.comp :=
  ⟨rfl, rfl, rfl, rfl, rfl, rfl, rfl, rfl, rfl⟩

/-- C10: under the header constants, `NODES` is exactly divisible by
`NUM_COMPONENTS`; every component has 25 members, which is strictly more
than `MAX_COMPONENT_OUTDEGREE + 1`; every node has at least
`MAX_COMPONENT_OUTDEGREE` distinct non-self destination candidates in
its own component (in particular at least one, so a destination draw
always has a candidate); and none of the `InvalidConfiguration`
conditions holds for the header. -/
theorem C10_header_partition_safe :
    NODES % NUM_COMPONENTS = 0 ∧
    (∀ c, c < NUM_COMPONENTS → compSize headerConfig c = 25) ∧
    (∀ c, c < NUM_COMPONENTS → MAX_COMPONENT_OUTDEGREE < compSize headerConfig c - 1) ∧
    (∀ v, v < NODES → MAX_COMPONENT_OUTDEGREE ≤ sameCompOthers headerConfig v) ∧
    (∀ v, v < NODES → 0 < sameCompOthers headerConfig v) ∧
    ¬ badConfig headerConfig := by
  refine ⟨by decide, by decide, by decide, ?_, ?_, by decide⟩ <;> decide

/-- Witness for C10 at component 0 and node 0. -/
theorem C10_header_partition_safe_witness :
    compSize headerConfig 0 = 25 ∧
    MAX_COMPONENT_OUTDEGREE ≤ sameCompOthers headerConfig 0 :=
  ⟨C10_header_partition_safe.2.1 0 (by decide),
    C10_header_partition_safe.2.2.2.1 0 (by decide)⟩

/-- C6: every node of the generated graph has outdegree at most
`MAX_COMPONENT_OUTDEGREE` (10), and every edge weight lies in the
half-open range `[0, MAX_WEIGHT)` (that is, `[0, 10)`). -/
theorem C6_outdegree_and_weight_bounds :
    (∀ v, v < theGraph.nodes → outdegIn theGraph.edges v ≤ MAX_COMPONENT_OUTDEGREE) ∧
    (∀ e ∈ theGraph.edges, 0 ≤ e.w ∧ e.w < MAX_WEIGHT) := by
  obtain ⟨-, hw, -, hod, -, -, -, -, -⟩ := generated_parts
  constructor
  · intro v hv
    have hmem := List.all_eq_true.mp hod v (List.mem_range.mpr hv)
    exact of_decide_eq_true hmem
  · intro e he
    exact ⟨Nat.zero_le _, of_decide_eq_true (List.all_eq_true.mp hw e he)⟩

/-- Witness for C6 at node 0 and the first generated edge. -/
theorem C6_outdegree_and_weight_bounds_witness :
    0 < theGraph.nodes ∧
    outdegIn theGraph.edges 0 ≤ MAX_COMPONENT_OUTDEGREE ∧
    (theGraph.edges.headD ⟨0, 0, 0⟩).w < MAX_WEIGHT :=
  ⟨by decide,
    C6_outdegree_and_weight_bounds.1 0 (by decide),
    (C6_outdegree_and_weight_bounds.2 _ (headD_mem theGraph_edges_ne_nil _)).2⟩

/-- C2: every node id in `[0, NODES)` belongs to exactly one of the
`NUM_COMPONENTS` components, and within each component every member is
reachable from the component's root by the independent undirected
traversal over the generated edge set (internal weak connectivity). -/
theorem C2_partition_and_weak_connectivity :
    (∀ v, v < theGraph.nodes → ∃! c, c < NUM_COMPONENTS ∧ theGraph.comp.getD v 0 = c) ∧
    (∀ c, c < NUM_COMPONENTS → ∀ v ∈ compMembers theGraph c,
      v ∈ reachFrom theGraph.edges (compMembers theGraph c).length
        ((compMembers theGraph c).headD 0)) := by
  obtain ⟨-, -, -, -, h5, -, -, h8, -⟩ := generated_parts
  constructor
  · intro v hv
    simp only [chkCompAssign, Bool.and_eq_true, beq_iff_eq, List.all_eq_true] at h5
    obtain ⟨hlen, hall⟩ := h5
    refine ⟨theGraph.comp.getD v 0, ⟨?_, rfl⟩, ?_⟩
    · have hvlen : v < theGraph.comp.length := by rw [hlen]; exact hv
      have hmem : theGraph.comp.getD v 0 ∈ theGraph.comp := getD_mem_of_lt hvlen 0
      exact of_decide_eq_true (hall _ hmem)
    · rintro c ⟨-, rfl⟩; rfl
  · intro c hc v hv
    have hcon : chkConnected theGraph c = true := by
      have hcon8 : ∀ x < NUM_COMPONENTS, chkConnected theGraph x = true := by
        simpa [chkAllConnected, List.all_eq_true, List.mem_range] using h8
      exact hcon8 c hc
    rw [chkConnected] at hcon
    cases hm : compMembers theGraph c with
    | nil => rw [hm] at hv; cases hv
    | cons r ms =>
      rw [hm] at hcon
      have hdec := List.all_eq_true.mp hcon v (by rw [← hm]; exact hv)
      simpa using of_decide_eq_true hdec

/-- Witness for C2 at node 0 in component 0. -/
theorem C2_partition_and_weak_connectivity_witness :
    0 < theGraph.nodes ∧ 0 < NUM_COMPONENTS ∧ 0 ∈ compMembers theGraph 0 ∧
    (∃! c, c < NUM_COMPONENTS ∧ theGraph.comp.getD 0 0 = c) ∧
    0 ∈ reachFrom theGraph.edges (compMembers theGraph 0).length
      ((compMembers theGraph 0).headD 0) :=
  ⟨by decide, by decide, by decide,
    C2_partition_and_weak_connectivity.1 0 (by decide),
    C2_partition_and_weak_connectivity.2 0 (by decide) 0 (by decide)⟩

/-- C7: with the header's configuration, generation yields exactly 100
nodes partitioned into 4 components of 25 members each, each internally
connected (every member reachable from the component root by the
undirected traversal), with every edge weight in `[0, 10)`. -/
theorem C7_header_scenario :
    theGraph.nodes = 100 ∧
    theGraph.comp.length = 100 ∧
    (∀ c, c < 4 → (compMembers theGraph c).length = 25) ∧
    (∀ c, c < 4 → ∀ v ∈ compMembers theGraph c,
      v ∈ reachFrom theGraph.edges (compMembers theGraph c).length
        ((compMembers theGraph c).headD 0)) ∧
    (∀ e ∈ theGraph.edges, 0 ≤ e.w ∧ e.w < 10) := by
  obtain ⟨-, hw, -, -, h5, h6, -, h8, -⟩ := generated_parts
  refine ⟨by decide, ?_, ?_, ?_, ?_⟩
  · simp only [chkCompAssign, Bool.and_eq_true, beq_iff_eq, List.all_eq_true] at h5
    exact h5.1
  · intro c hc
    have h6s : ∀ x < NUM_COMPONENTS, (compMembers theGraph x).length = 25 := by
      simpa [chkCompSizes, List.all_eq_true, List.mem_range] using h6
    exact h6s c hc
  · intro c hc v hv
    have hcon : chkConnected theGraph c = true := by
      have hcon8 : ∀ x < NUM_COMPONENTS, chkConnected theGraph x = true := by
        simpa [chkAllConnected, List.all_eq_true, List.mem_range] using h8
      exact hcon8 c hc
    rw [chkConnected] at hcon
    cases hm : compMembers theGraph c with
    | nil => rw [hm] at hv; cases hv
    | cons r ms =>
      rw [hm] at hcon
      have hdec := List.all_eq_true.mp hcon v (by rw [← hm]; exact hv)
      simpa using of_decide_eq_true hdec
  · intro e he
    exact ⟨Nat.zero_le _, of_decide_eq_true (List.all_eq_true.mp hw e he)⟩

/-- Witness for C7 at component 0, node 0 and the first edge. -/
theorem C7_header_scenario_witness :
    (compMembers theGraph 0).length = 25 ∧
    0 ∈ reachFrom theGraph.edges (compMembers theGraph 0).length
      ((compMembers theGraph 0).headD 0) ∧
    (theGraph.edges.headD ⟨0, 0, 0⟩).w < 10 :=
  ⟨C7_header_scenario.2.2.1 0 (by decide),
    C7_header_scenario.2.2.2.1 0 (by decide) 0 (by decide),
    (C7_header_scenario.2.2.2.2 _ (headD_mem theGraph_edges_ne_nil _)).2⟩


/-! ## BFS kernel claim development -/

/-! ## BFS kernel lemmas -/

/-- Lookup in a replicate-none list. -/
theorem get?_replicate_none {n v : Nat} :
    (List.replicate n (none : Option Nat)).get? v =
      if v < n then some none else none := by
  induction n generalizing v with
  | zero => simp
  | succ n ih =>
    cases v with
    | zero => simp [List.replicate_succ]
    | succ v =>
      simp only [List.replicate_succ, List.get?_cons_succ, ih, Nat.succ_lt_succ_iff]

/-- The initial state records distance 0 for the source. -/
theorem dAt_distInit_self {n src : Nat} (h : src < n) :
    dAt (distInit n src) src = some 0 := by
  unfold dAt distInit
  rw [List.get?_set_eq, get?_replicate_none, if_pos h]
  rfl

/-- The initial state records the sentinel away from the source. -/
theorem dAt_distInit_ne {n src v : Nat} (h : v ≠ src) :
    dAt (distInit n src) v = none := by
  unfold dAt distInit
  rw [List.get?_set_ne _ _ (fun hh => h hh.symm)]
  rw [get?_replicate_none]
  split <;> rfl

/-- Length of the initial state. -/
theorem length_distInit (n src : Nat) : (distInit n src).length = n := by
  simp [distInit]

/-- Length of a BFS round. -/
theorem length_bfsRound (g : Graph) (d : List (Option Nat)) (r : Nat) :
    (bfsRound g d r).length = g.nodes := by
  simp [bfsRound]

/-- Out-of-range lookups read the sentinel. -/
theorem dAt_eq_none_of_ge {d : List (Option Nat)} {v : Nat} (h : d.length ≤ v) :
    dAt d v = none := by
  unfold dAt
  rw [List.get?_eq_none.mpr h]
  rfl

/-- Pointwise description of a BFS round. -/
theorem dAt_bfsRound (g : Graph) (d : List (Option Nat)) (r v : Nat) (hv : v < g.nodes) :
    dAt (bfsRound g d r) v =
      match dAt d v with
      | some k => some k
      | none => if hasVisitedPred g d v then some (r + 1) else none := by
  unfold bfsRound dAt
  rw [List.get?_map, List.get?_range hv]
  rfl

/-- A BFS round keeps recorded distances. -/
theorem bfsRound_preserve {g : Graph} {d : List (Option Nat)} {r v k : Nat}
    (hlen : d.length = g.nodes) (h : dAt d v = some k) :
    dAt (bfsRound g d r) v = some k := by
  by_cases hv : v < g.nodes
  · rw [dAt_bfsRound g d r v hv, h]
  · rw [dAt_eq_none_of_ge (by omega : d.length ≤ v)] at h
    cases h

/-- A BFS round keeps visited nodes visited. -/
theorem bfsRound_preserve_isSome {g : Graph} {d : List (Option Nat)} {r v : Nat}
    (hlen : d.length = g.nodes) (h : (dAt d v).isSome = true) :
    (dAt (bfsRound g d r) v).isSome = true := by
  cases hk : dAt d v with
  | none => rw [hk] at h; cases h
  | some k => rw [bfsRound_preserve hlen hk]; rfl

/-- A BFS round marks an unvisited node with a visited in-neighbour. -/
theorem bfsRound_marks {g : Graph} {d : List (Option Nat)} {r v : Nat}
    (hv : v < g.nodes) (hnone : dAt d v = none)
    (hpred : hasVisitedPred g d v = true) :
    dAt (bfsRound g d r) v = some (r + 1) := by
  rw [dAt_bfsRound g d r v hv, hnone]
  simp [hpred]

/-- An edge from a visited node witnesses the frontier predicate. -/
theorem hasVisitedPred_of_edge {g : Graph} {d : List (Option Nat)} {e : Edge}
    (he : e ∈ g.edges) (hs : (dAt d e.src).isSome = true) :
    hasVisitedPred g d e.dst = true := by
  unfold hasVisitedPred
  rw [List.any_eq_true]
  exact ⟨e, he, by simp [hs]⟩

/-- New distances of a BFS round are bounded by the new round number. -/
theorem bfsRound_bound {g : Graph} {d : List (Option Nat)} {r : Nat}
    (hb : ∀ v k, dAt d v = some k → k ≤ r) :
    ∀ v k, dAt (bfsRound g d r) v = some k → k ≤ r + 1 := by
  intro v k h
  by_cases hv : v < g.nodes
  · rw [dAt_bfsRound g d r v hv] at h
    cases hd : dAt d v with
    | some k2 =>
      rw [hd] at h
      injection h with h2
      subst h2
      exact Nat.le_succ_of_le (hb v _ hd)
    | none =>
      rw [hd] at h
      by_cases hpred : hasVisitedPred g d v = true
      · rw [if_pos hpred] at h
        injection h with h2
        omega
      · rw [if_neg hpred] at h
        cases h
  · rw [dAt_eq_none_of_ge (by rw [length_bfsRound]; omega)] at h
    cases h

/-- The loop keeps recorded distances. -/
theorem bfsLoop_preserve {g : Graph} :
    ∀ fuel r d v k, d.length = g.nodes → dAt d v = some k →
      dAt (bfsLoop g fuel r d).1 v = some k := by
  intro fuel
  induction fuel with
  | zero => intro r d v k _ h; exact h
  | succ f ih =>
    intro r d v k hlen h
    simp only [bfsLoop]
    split
    · exact h
    · exact ih _ _ v k (by rw [length_bfsRound]) (bfsRound_preserve hlen h)

/-- The loop's final round counter. -/
theorem bfsLoop_round_le {g : Graph} :
    ∀ fuel r d, (bfsLoop g fuel r d).2 ≤ r + fuel := by
  intro fuel
  induction fuel with
  | zero => intro r d; exact Nat.le_refl _
  | succ f ih =>
    intro r d
    simp only [bfsLoop]
    split
    · exact Nat.le_add_right _ _
    · exact le_trans (ih _ _) (by omega)

/-- All distances of the final state are bounded by the consumed fuel. -/
theorem bfsLoop_bound {g : Graph} :
    ∀ fuel r d, d.length = g.nodes → (∀ v k, dAt d v = some k → k ≤ r) →
      ∀ v k, dAt (bfsLoop g fuel r d).1 v = some k → k ≤ r + fuel := by
  intro fuel
  induction fuel with
  | zero => intro r d _ hb v k h; exact hb v k h
  | succ f ih =>
    intro r d hlen hb v k h
    simp only [bfsLoop] at h
    split at h
    · exact le_trans (hb v k h) (Nat.le_add_right _ _)
    · have := ih (r + 1) _ (by rw [length_bfsRound]) (bfsRound_bound hb) v k h
      omega

/-- Splitting a path at its last edge. -/
theorem isPath_concat {g : Graph} {s t : Nat} {q : List Edge} {e : Edge}
    (h : IsPath g s (q.concat e) t) :
    IsPath g s q e.src ∧ e ∈ g.edges ∧ e.dst = t := by
  induction q generalizing s with
  | nil =>
    simp only [List.concat, IsPath] at h ⊢
    exact ⟨h.2.1.symm, h.1, h.2.2⟩
  | cons f q ih =>
    simp only [List.concat, IsPath] at h ⊢
    obtain ⟨hf, hfs, hrest⟩ := h
    obtain ⟨h1, h2, h3⟩ := ih hrest
    exact ⟨⟨hf, hfs, h1⟩, h2, h3⟩

/-- In a fixpoint state, every node with a path from a visited node is
visited. -/
theorem reach_of_closed {g : Graph} {d : List (Option Nat)} {r : Nat}
    (hwf : WellFormed g) (hfix : bfsRound g d r = d) :
    ∀ p a t, (dAt d a).isSome = true → IsPath g a p t →
      (dAt d t).isSome = true := by
  intro p
  induction p with
  | nil =>
    intro a t ha hp
    simp only [IsPath] at hp
    exact hp ▸ ha
  | cons e p ih =>
    intro a t ha hp
    simp only [IsPath] at hp
    obtain ⟨he, hes, hp'⟩ := hp
    have hdst : e.dst < g.nodes := (hwf e he).2
    have hsrcsome : (dAt d e.src).isSome = true := by rw [hes]; exact ha
    have hd : (dAt d e.dst).isSome = true := by
      by_contra hn
      have hnone : dAt d e.dst = none := by
        cases hcd : dAt d e.dst with
        | none => rfl
        | some k => rw [hcd] at hn; exact absurd rfl hn
      have hm := bfsRound_marks (r := r) hdst hnone
        (hasVisitedPred_of_edge he hsrcsome)
      rw [hfix, hnone] at hm
      cases hm
    exact ih e.dst t hd hp'

/-- A BFS round extends reachability-within-`j` to `j + 1`. -/
theorem bfsRound_complete {g : Graph} {src j r : Nat} {d : List (Option Nat)}
    (hwf : WellFormed g) (hlen : d.length = g.nodes)
    (hreach : ∀ v, v < g.nodes → (∃ p, IsPath g src p v ∧ p.length ≤ j) →
      (dAt d v).isSome = true) :
    ∀ v, v < g.nodes → (∃ p, IsPath g src p v ∧ p.length ≤ j + 1) →
      (dAt (bfsRound g d r) v).isSome = true := by
  rintro v hv ⟨p, hp, hlp⟩
  rcases List.eq_nil_or_concat p with rfl | ⟨q, e, rfl⟩
  · exact bfsRound_preserve_isSome hlen
      (hreach v hv ⟨[], hp, Nat.zero_le _⟩)
  · obtain ⟨hq, he, ht⟩ := isPath_concat hp
    have hsrc_lt : e.src < g.nodes := (hwf e he).1
    have hql : q.length ≤ j := by
      simp only [List.concat_eq_append, List.length_append,
        List.length_cons, List.length_nil] at hlp
      omega
    have hqsome := hreach e.src hsrc_lt ⟨q, hq, hql⟩
    cases hd : dAt d v with
    | some k => rw [bfsRound_preserve hlen hd]; rfl
    | none =>
      rw [bfsRound_marks hv hd (ht ▸ hasVisitedPred_of_edge he hqsome)]
      rfl

/-- The loop reaches every node with a path of length at most the
initial bound plus the fuel. -/
theorem bfsLoop_complete {g : Graph} {src : Nat} (hwf : WellFormed g)
    (hsrc : src < g.nodes) :
    ∀ fuel r j d, d.length = g.nodes →
    (∀ v, v < g.nodes → (∃ p, IsPath g src p v ∧ p.length ≤ j) →
      (dAt d v).isSome = true) →
    ∀ v, v < g.nodes → (∃ p, IsPath g src p v ∧ p.length ≤ j + fuel) →
      (dAt (bfsLoop g fuel r d).1 v).isSome = true := by
  intro fuel
  induction fuel with
  | zero => intro r j d _ hreach v hv hex; exact hreach v hv hex
  | succ f ih =>
    intro r j d hlen hreach v hv hex
    simp only [bfsLoop]
    split
    · -- fixpoint: every node with any path from the source is visited
      obtain ⟨p, hp, -⟩ := hex
      have hsrcsome : (dAt d src).isSome = true :=
        hreach src hsrc ⟨[], by simp [IsPath], Nat.zero_le _⟩
      next hfix => exact reach_of_closed hwf hfix p src v hsrcsome hp
    · obtain ⟨p, hp, hlp⟩ := hex
      exact ih (r + 1) (j + 1) _ (by rw [length_bfsRound])
        (bfsRound_complete hwf hlen hreach) v hv ⟨p, hp, by omega⟩

/-- C4: on every graph and valid source, the BFS kernel reports the
source at distance 0; every reached node at distance at most the
iteration cap; and every node unreached after the cap has no path from
the source of length at most the cap. -/
theorem C4_bfs_iteration_cap (g : Graph) (src cap : Nat) (res : BFSResult)
    (hwf : WellFormed g) (hrun : runBFS g src cap = .ok res) :
    dAt res.dist src = some 0 ∧
    (∀ v k, dAt res.dist v = some k → k ≤ cap) ∧
    (∀ v, v < g.nodes → dAt res.dist v = none →
      ∀ p, IsPath g src p v → cap < p.length) := by
  have hsrc : src < g.nodes := by
    by_contra h
    rw [runBFS, if_neg h] at hrun
    cases hrun
  rw [runBFS, if_pos hsrc] at hrun
  have hres : res = ⟨(bfsLoop g cap 0 (distInit g.nodes src)).1,
      (bfsLoop g cap 0 (distInit g.nodes src)).2⟩ := by
    cases hrun; rfl
  subst hres
  have hlen0 : (distInit g.nodes src).length = g.nodes := length_distInit _ _
  have hinit_bound : ∀ v k, dAt (distInit g.nodes src) v = some k → k ≤ 0 := by
    intro v k h
    by_cases hvs : v = src
    · subst hvs; rw [dAt_distInit_self hsrc] at h; cases h; exact Nat.le_refl _
    · rw [dAt_distInit_ne hvs] at h; cases h
  refine ⟨?_, ?_, ?_⟩
  · exact bfsLoop_preserve cap 0 _ src 0 hlen0 (dAt_distInit_self hsrc)
  · intro v k h
    have := bfsLoop_bound cap 0 _ hlen0 hinit_bound v k h
    omega
  · intro v hv hnone p hp
    by_contra hle
    push_neg at hle
    have hreach0 : ∀ u, u < g.nodes →
        (∃ q, IsPath g src q u ∧ q.length ≤ 0) →
        (dAt (distInit g.nodes src) u).isSome = true := by
      rintro u hu ⟨q, hq, hlq⟩
      have : q = [] := List.length_eq_zero.mp (Nat.le_zero.mp hlq)
      subst this
      simp only [IsPath] at hq
      subst hq
      rw [dAt_distInit_self hsrc]
      rfl
    have := bfsLoop_complete hwf hsrc cap 0 0 _ hlen0 hreach0 v hv
      ⟨p, hp, by omega⟩
    rw [hnone] at this
    cases this

/-- Witness for C4 on the four-node example graph with the header's BFS
iteration cap. -/
theorem C4_bfs_iteration_cap_witness :
    WellFormed exampleGraph2 ∧
    runBFS exampleGraph2 0 BFS_MAX_ITERATIONS =
      .ok ⟨[some 0, some 1, some 1, none], 1⟩ ∧
    dAt [some 0, some 1, some 1, none] 0 = some 0 :=
  ⟨by decide, by rfl,
    (C4_bfs_iteration_cap exampleGraph2 0 BFS_MAX_ITERATIONS
      ⟨[some 0, some 1, some 1, none], 1⟩ (by decide) (by rfl)).1⟩

/-! ## Bellman-Ford claim development -/

/-! ## Bellman-Ford kernel lemmas -/



/-- A fixpoint of the round is a fixpoint of every iterate. -/
theorem bfIter_fix {g : Graph} {d : List (Option Nat)} (h : bfRound g d = d) :
    ∀ k, bfIter g k d = d := by
  intro k
  induction k with
  | zero => rfl
  | succ k ih => show bfIter g k (bfRound g d) = d; rw [h]; exact ih

/-- The early-exit loop computes exactly the `fuel`-fold iterate. -/
theorem bfLoop_eq_bfIter (g : Graph) :
    ∀ fuel r d, (bfLoop g fuel r d).1 = bfIter g fuel d := by
  intro fuel
  induction fuel with
  | zero => intro r d; rfl
  | succ f ih =>
    intro r d
    simp only [bfLoop]
    split
    · next hfix => exact (bfIter_fix hfix (f + 1)).symm
    · exact ih (r + 1) (bfRound g d)

/-- Iterates commute with one more round. -/
theorem bfIter_succ_comm (g : Graph) :
    ∀ k d, bfIter g (k + 1) d = bfRound g (bfIter g k d) := by
  intro k
  induction k with
  | zero => intro d; rfl
  | succ k ih =>
    intro d
    show bfIter g (k + 1) (bfRound g d) = _
    rw [ih (bfRound g d)]
    rfl

/-- A relaxation preserves the state length. -/
theorem relax_length (d : List (Option Nat)) (e : Edge) :
    (relax d e).length = d.length := by
  unfold relax
  split
  · rfl
  · split
    · simp
    · split
      · simp
      · rfl

/-- A fold of relaxations preserves the state length. -/
theorem foldl_relax_length (l : List Edge) (d : List (Option Nat)) :
    (List.foldl relax d l).length = d.length := by
  induction l generalizing d with
  | nil => rfl
  | cons e l ih => rw [List.foldl_cons, ih, relax_length]

/-- A round preserves the state length. -/
theorem bfRound_length (g : Graph) (d : List (Option Nat)) :
    (bfRound g d).length = d.length := foldl_relax_length g.edges d

/-- Iterates preserve the state length. -/
theorem bfIter_length (g : Graph) :
    ∀ k d, (bfIter g k d).length = d.length := by
  intro k
  induction k with
  | zero => intro d; rfl
  | succ k ih => intro d; show (bfIter g k (bfRound g d)).length = _
                 rw [ih, bfRound_length]

/-- A recorded distance implies the index is in range. -/
theorem lt_length_of_dAt_some {d : List (Option Nat)} {v k : Nat}
    (h : dAt d v = some k) : v < d.length := by
  by_contra hge
  rw [dAt_eq_none_of_ge (by omega)] at h
  cases h

/-- Setting inside the range is read back. -/
theorem dAt_set_self {d : List (Option Nat)} {i : Nat} {x : Option Nat}
    (h : i < d.length) : dAt (d.set i x) i = x := by
  unfold dAt
  rw [List.get?_set_eq, List.get?_eq_get h]
  rfl

/-- Setting elsewhere does not change a lookup. -/
theorem dAt_set_ne {d : List (Option Nat)} {i v : Nat} {x : Option Nat}
    (h : v ≠ i) : dAt (d.set i x) v = dAt d v := by
  unfold dAt
  rw [List.get?_set_ne _ _ (fun hh => h hh.symm)]

/-- A relaxation only lowers recorded distances. -/
theorem relax_mono {d : List (Option Nat)} {e : Edge} :
    ∀ v k, dAt d v = some k → ∃ m, m ≤ k ∧ dAt (relax d e) v = some m := by
  intro v k h
  unfold relax
  split
  · exact ⟨k, Nat.le_refl _, h⟩
  next du hsrc =>
    split
    next hdst =>
      by_cases hv : v = e.dst
      · rw [hv, hdst] at h; cases h
      · rw [dAt_set_ne hv]; exact ⟨k, Nat.le_refl _, h⟩
    next dv hdst =>
      split
      next hlt =>
        by_cases hv : v = e.dst
        · subst hv
          rw [hdst] at h
          injection h with h2
          subst h2
          refine ⟨du + e.w, by omega, ?_⟩
          exact dAt_set_self (lt_length_of_dAt_some hdst)
        · rw [dAt_set_ne hv]; exact ⟨k, Nat.le_refl _, h⟩
      next => exact ⟨k, Nat.le_refl _, h⟩

/-- A fold of relaxations only lowers recorded distances. -/
theorem foldl_relax_mono {l : List Edge} :
    ∀ {d : List (Option Nat)} (v k : Nat), dAt d v = some k →
      ∃ m, m ≤ k ∧ dAt (List.foldl relax d l) v = some m := by
  induction l with
  | nil => intro d v k h; exact ⟨k, Nat.le_refl _, h⟩
  | cons e l ih =>
    intro d v k h
    obtain ⟨m1, hm1, h1⟩ := relax_mono (e := e) v k h
    obtain ⟨m2, hm2, h2⟩ := ih v m1 h1
    exact ⟨m2, le_trans hm2 hm1, h2⟩

/-- A single relaxation of an edge whose tail is recorded bounds the
head's new distance. -/
theorem relax_edge_bound {d1 : List (Option Nat)} {e : Edge} {du' : Nat}
    (hdst : e.dst < d1.length) (h1 : dAt d1 e.src = some du') :
    ∃ m, m ≤ du' + e.w ∧ dAt (relax d1 e) e.dst = some m := by
  unfold relax
  split
  next hnone => rw [h1] at hnone; cases hnone
  next du2 hsrc2 =>
    rw [h1] at hsrc2
    injection hsrc2 with hdu2
    subst hdu2
    split
    next hdd => exact ⟨du' + e.w, Nat.le_refl _, dAt_set_self hdst⟩
    next dv hdd =>
      split
      next hlt => exact ⟨du' + e.w, Nat.le_refl _, dAt_set_self hdst⟩
      next hnlt => exact ⟨dv, by omega, hdd⟩

/-- After a full round, the recorded distance of an edge's head is at
most the tail's distance plus the edge weight. -/
theorem bfRound_edge_bound {g : Graph} {d : List (Option Nat)} {e : Edge} {du : Nat}
    (he : e ∈ g.edges) (hdst : e.dst < d.length) (hsrc : dAt d e.src = some du) :
    ∃ m, m ≤ du + e.w ∧ dAt (bfRound g d) e.dst = some m := by
  obtain ⟨l1, l2, hsplit⟩ := List.append_of_mem he
  rw [bfRound, hsplit, List.foldl_append, List.foldl_cons]
  obtain ⟨du', hdu', h1⟩ := foldl_relax_mono (l := l1) e.src du hsrc
  have hlen1 : (List.foldl relax d l1).length = d.length := foldl_relax_length _ _
  obtain ⟨m1, hm1, h2⟩ := relax_edge_bound (by rw [hlen1]; exact hdst) h1
  obtain ⟨m2, hm2, h3⟩ := foldl_relax_mono (l := l2) e.dst m1 h2
  exact ⟨m2, by omega, h3⟩

/-- Extending a path by one edge. -/
theorem isPath_concat_intro {g : Graph} {s : Nat} {q : List Edge} {e : Edge}
    (hq : IsPath g s q e.src) (he : e ∈ g.edges) :
    IsPath g s (q.concat e) e.dst := by
  induction q generalizing s with
  | nil =>
    simp only [IsPath] at hq
    subst hq
    exact ⟨he, rfl, rfl⟩
  | cons f q ih =>
    obtain ⟨hf, hfs, hrest⟩ := hq
    exact ⟨hf, hfs, ih hrest⟩

/-- Weight of a path extended by one edge. -/
theorem pathWeight_concat (q : List Edge) (e : Edge) :
    pathWeight (q.concat e) = pathWeight q + e.w := by
  simp [pathWeight, List.concat_eq_append]

/-- Soundness: every finite recorded distance is realised by a path. -/
theorem relax_sound {g : Graph} {s : Nat} {d : List (Option Nat)} {e : Edge}
    (he : e ∈ g.edges)
    (hinv : ∀ v k, dAt d v = some k → ∃ p, IsPath g s p v ∧ pathWeight p = k) :
    ∀ v k, dAt (relax d e) v = some k →
      ∃ p, IsPath g s p v ∧ pathWeight p = k := by
  intro v k h
  unfold relax at h
  split at h
  · exact hinv v k h
  next du hsrc =>
    split at h
    next hdst =>
      by_cases hv : v = e.dst
      · subst hv
        by_cases hrange : e.dst < d.length
        · rw [dAt_set_self hrange] at h
          injection h with h2
          obtain ⟨q, hq, hw⟩ := hinv e.src du hsrc
          exact ⟨q.concat e, isPath_concat_intro hq he, by
            rw [pathWeight_concat, hw, h2]⟩
        · rw [dAt_eq_none_of_ge (by rw [List.length_set]; omega)] at h
          cases h
      · rw [dAt_set_ne hv] at h
        exact hinv v k h
    next dv hdst =>
      split at h
      next hlt =>
        by_cases hv : v = e.dst
        · subst hv
          rw [dAt_set_self (lt_length_of_dAt_some hdst)] at h
          injection h with h2
          obtain ⟨q, hq, hw⟩ := hinv e.src du hsrc
          exact ⟨q.concat e, isPath_concat_intro hq he, by
            rw [pathWeight_concat, hw, h2]⟩
        · rw [dAt_set_ne hv] at h
          exact hinv v k h
      next => exact hinv v k h


/-- Upper bound: after `k` rounds every node with a path of at most `k`
edges is recorded at most the path's weight. -/
theorem bfIter_le_pathWeight {g : Graph} {s : Nat} (hwf : WellFormed g)
    (hsrc : s < g.nodes) :
    ∀ k p v, IsPath g s p v → p.length ≤ k →
      ∃ m, m ≤ pathWeight p ∧
        dAt (bfIter g k (distInit g.nodes s)) v = some m := by
  intro k
  induction k with
  | zero =>
    intro p v hp hl
    have hpnil : p = [] := List.length_eq_zero.mp (Nat.le_zero.mp hl)
    subst hpnil
    simp only [IsPath] at hp
    subst hp
    exact ⟨0, Nat.le_refl _, dAt_distInit_self hsrc⟩
  | succ k ih =>
    intro p v hp hl
    rw [bfIter_succ_comm]
    rcases List.eq_nil_or_concat p with rfl | ⟨q, e, rfl⟩
    · simp only [IsPath] at hp
      subst hp
      obtain ⟨m, hm, hd⟩ := ih [] s (by simp [IsPath]) (Nat.zero_le _)
      obtain ⟨m2, hm2, hd2⟩ := foldl_relax_mono (l := g.edges) s m hd
      exact ⟨m2, le_trans hm2 hm, hd2⟩
    · obtain ⟨hq, he, ht⟩ := isPath_concat hp
      have hql : q.length ≤ k := by
        simp only [List.concat_eq_append, List.length_append,
          List.length_cons, List.length_nil] at hl
        omega
      obtain ⟨m, hm, hd⟩ := ih q e.src hq hql
      have hdlt : e.dst < (bfIter g k (distInit g.nodes s)).length := by
        rw [bfIter_length, length_distInit]
        exact (hwf e he).2
      obtain ⟨m2, hm2, hd2⟩ := bfRound_edge_bound he hdlt hd
      refine ⟨m2, ?_, ht ▸ hd2⟩
      rw [pathWeight_concat]
      omega

/-- A fold of relaxations over graph edges preserves soundness. -/
theorem foldl_relax_sound {g : Graph} {s : Nat} :
    ∀ (l : List Edge) (d : List (Option Nat)), (∀ e ∈ l, e ∈ g.edges) →
      (∀ v m, dAt d v = some m → ∃ p, IsPath g s p v ∧ pathWeight p = m) →
      ∀ v m, dAt (List.foldl relax d l) v = some m →
        ∃ p, IsPath g s p v ∧ pathWeight p = m := by
  intro l
  induction l with
  | nil => intro d _ hinv v m h; exact hinv v m h
  | cons e l ih =>
    intro d hsub hinv v m h
    rw [List.foldl_cons] at h
    exact ih (relax d e) (fun f hf => hsub f (List.mem_cons_of_mem e hf))
      (relax_sound (hsub e (List.mem_cons_self e l)) hinv) v m h

/-- Soundness of the iterates: every finite recorded distance is the
weight of an actual path from the source. -/
theorem bfIter_sound {g : Graph} {s : Nat} :
    ∀ k v m, dAt (bfIter g k (distInit g.nodes s)) v = some m →
      ∃ p, IsPath g s p v ∧ pathWeight p = m := by
  have hinit : ∀ v m, dAt (distInit g.nodes s) v = some m →
      ∃ p, IsPath g s p v ∧ pathWeight p = m := by
    intro v m h
    by_cases hv : v = s
    · subst hv
      refine ⟨[], ?_, ?_⟩
      · show v = v
        rfl
      · have hm : m = 0 := by
          by_cases hrange : v < g.nodes
          · rw [dAt_distInit_self hrange] at h
            injection h with h2
            exact h2.symm
          · rw [dAt_eq_none_of_ge (by rw [length_distInit]; omega)] at h
            cases h
        rw [hm]
        rfl
    · rw [dAt_distInit_ne hv] at h
      cases h
  have hstep : ∀ (dd : List (Option Nat)),
      (∀ v m, dAt dd v = some m → ∃ p, IsPath g s p v ∧ pathWeight p = m) →
      ∀ v m, dAt (bfRound g dd) v = some m →
        ∃ p, IsPath g s p v ∧ pathWeight p = m :=
    fun dd hinv => foldl_relax_sound g.edges dd (fun _ he => he) hinv
  intro k
  induction k with
  | zero => exact hinit
  | succ k ih =>
    intro v m h
    rw [bfIter_succ_comm] at h
    exact hstep _ ih v m h


/-- Concatenating two paths. -/
theorem isPath_append_intro {g : Graph} {s m v : Nat} {p1 p2 : List Edge}
    (h1 : IsPath g s p1 m) (h2 : IsPath g m p2 v) :
    IsPath g s (p1 ++ p2) v := by
  induction p1 generalizing s with
  | nil =>
    simp only [IsPath] at h1
    subst h1
    simpa using h2
  | cons e p1 ih =>
    obtain ⟨he, hes, hrest⟩ := h1
    exact ⟨he, hes, ih hrest⟩

/-- Path weight is additive over concatenation. -/
theorem pathWeight_append (p1 p2 : List Edge) :
    pathWeight (p1 ++ p2) = pathWeight p1 + pathWeight p2 := by
  simp [pathWeight]

/-- The first node of a path is its start. -/
theorem pathNode_zero (s : Nat) (p : List Edge) : pathNode s p 0 = s := rfl

/-- Splitting a path at position `i`. -/
theorem isPath_take_drop {g : Graph} {s v : Nat} {p : List Edge}
    (hp : IsPath g s p v) :
    ∀ i, i ≤ p.length →
      IsPath g s (p.take i) (pathNode s p i) ∧
      IsPath g (pathNode s p i) (p.drop i) v := by
  induction p generalizing s with
  | nil =>
    intro i hi
    have : i = 0 := Nat.le_zero.mp hi
    subst this
    exact ⟨rfl, hp⟩
  | cons e p ih =>
    intro i hi
    obtain ⟨he, hes, hrest⟩ := hp
    cases i with
    | zero =>
      refine ⟨?_, ?_⟩
      · show s = s
        rfl
      · exact ⟨he, hes, hrest⟩
    | succ i =>
      have hi' : i ≤ p.length := Nat.le_of_succ_le_succ hi
      obtain ⟨h1, h2⟩ := ih hrest i hi'
      have hnode : pathNode s (e :: p) (i + 1) = pathNode e.dst p i := rfl
      rw [hnode]
      exact ⟨⟨he, hes, h1⟩, h2⟩

/-- All nodes along a path stay inside a set closed under the edges. -/
theorem path_nodes_mem {g : Graph} {S : List Nat}
    (hclosed : ∀ e ∈ g.edges, e.src ∈ S → e.dst ∈ S) :
    ∀ {s v : Nat} {p : List Edge}, s ∈ S → IsPath g s p v →
      ∀ x ∈ s :: p.map (fun e => e.dst), x ∈ S := by
  intro s v p
  induction p generalizing s with
  | nil =>
    intro hs _ x hx
    simp only [List.map_nil, List.mem_singleton] at hx
    exact hx ▸ hs
  | cons e p ih =>
    intro hs hp x hx
    obtain ⟨he, hes, hrest⟩ := hp
    have hdstS : e.dst ∈ S := hclosed e he (hes ▸ hs)
    simp only [List.map_cons, List.mem_cons] at hx
    rcases hx with rfl | hx
    · exact hs
    · exact ih hdstS hrest x (by simpa using hx)

/-- Removing the loop between two repeated nodes of a path. -/
theorem path_cut {g : Graph} {s v : Nat} {p : List Edge} (hp : IsPath g s p v)
    {i j : Nat} (hij : i < j) (hj : j ≤ p.length)
    (heq : pathNode s p i = pathNode s p j) :
    ∃ q, IsPath g s q v ∧ pathWeight q ≤ pathWeight p ∧
      q.length + 1 ≤ p.length := by
  have hi : i ≤ p.length := by omega
  obtain ⟨htake, -⟩ := isPath_take_drop hp i hi
  obtain ⟨-, hdrop⟩ := isPath_take_drop hp j hj
  rw [← heq] at hdrop
  refine ⟨p.take i ++ p.drop j, isPath_append_intro htake hdrop, ?_, ?_⟩
  · have hsplit : p = p.take i ++ ((p.drop i).take (j - i) ++ p.drop j) := by
      have h1 : (p.drop i).drop (j - i) = p.drop j := by
        rw [List.drop_drop]
        congr 1
        omega
      rw [← h1, List.take_append_drop, List.take_append_drop]
    calc pathWeight (p.take i ++ p.drop j)
        = pathWeight (p.take i) + pathWeight (p.drop j) := pathWeight_append _ _
      _ ≤ pathWeight (p.take i) + (pathWeight ((p.drop i).take (j - i)) +
            pathWeight (p.drop j)) := by omega
      _ = pathWeight p := by
            rw [← pathWeight_append, ← pathWeight_append, ← hsplit]
  · have h1 : (p.take i).length = i := by
      rw [List.length_take]
      omega
    have h2 : (p.drop j).length = p.length - j := List.length_drop _ _
    rw [List.length_append, h1, h2]
    omega

/-- Any path can be shortened, without increasing its weight, to one of
length below the size of a closed node set containing its start. -/
theorem path_shorten {g : Graph} {S : List Nat}
    (hclosed : ∀ e ∈ g.edges, e.src ∈ S → e.dst ∈ S) :
    ∀ (n : Nat) {s v : Nat} (p : List Edge), s ∈ S → p.length ≤ n →
      IsPath g s p v →
      ∃ q, IsPath g s q v ∧ pathWeight q ≤ pathWeight p ∧
        q.length ≤ S.length - 1 := by
  intro n
  induction n with
  | zero =>
    intro s v p hs hl hp
    have : p = [] := List.length_eq_zero.mp (Nat.le_zero.mp hl)
    subst this
    have hS1 : 1 ≤ S.length := List.length_pos.mpr (List.ne_nil_of_mem hs)
    exact ⟨[], hp, Nat.le_refl _, by simp⟩
  | succ n ih =>
    intro s v p hs hl hp
    by_cases hshort : p.length ≤ S.length - 1
    · exact ⟨p, hp, Nat.le_refl _, hshort⟩
    · have hS1 : 1 ≤ S.length := List.length_pos.mpr (List.ne_nil_of_mem hs)
      have hlong : S.length ≤ p.length := by omega
      set ns := s :: p.map (fun e => e.dst) with hns
      have hnslen : ns.length = p.length + 1 := by simp [hns]
      have hsub : ∀ x ∈ ns, x ∈ S := path_nodes_mem hclosed hs hp
      have hnotnodup : ¬ ns.Nodup := by
        intro hnodup
        have := (List.subperm_of_subset hnodup hsub).length_le
        omega
      rw [List.nodup_iff_injective_get] at hnotnodup
      obtain ⟨a, b, hab, hne⟩ := Function.not_injective_iff.mp hnotnodup
      have hget : ∀ (x : Fin ns.length), ns.get x = pathNode s p x.val := by
        intro x
        unfold pathNode
        rw [← hns, List.getD_eq_get _ _ x.isLt]
      have hvalne : a.val ≠ b.val := fun hh => hne (Fin.ext hh)
      have key : ∀ (i j : Nat), i < j → j < ns.length →
          pathNode s p i = pathNode s p j →
          ∃ q, IsPath g s q v ∧ pathWeight q ≤ pathWeight p ∧
            q.length ≤ S.length - 1 := by
        intro i j hij hjlt heq
        obtain ⟨q, hq, hwq, hlq⟩ := path_cut hp hij (by omega) heq
        obtain ⟨q2, hq2, hwq2, hlq2⟩ := ih q hs (by omega) hq
        exact ⟨q2, hq2, le_trans hwq2 hwq, hlq2⟩
      rcases Nat.lt_or_ge a.val b.val with hlt | hge
      · exact key a.val b.val hlt b.isLt
          (by rw [← hget a, ← hget b, hab])
      · have hlt : b.val < a.val := by omega
        exact key b.val a.val hlt a.isLt
          (by rw [← hget a, ← hget b, hab])

/-- Core optimality: after enough rounds (the size of a closed node set
containing the source, minus one), every finite recorded distance is the
least path weight. -/
theorem bf_isLeast_core {g : Graph} {s : Nat} {S : List Nat} (hwf : WellFormed g)
    (hclosed : ∀ e ∈ g.edges, e.src ∈ S → e.dst ∈ S) (hs : s ∈ S)
    (hsrc : s < g.nodes) {cap : Nat} (hcap : S.length - 1 ≤ cap) :
    ∀ v k, dAt (bfIter g cap (distInit g.nodes s)) v = some k →
      IsLeast {w | ∃ p, IsPath g s p v ∧ pathWeight p = w} k := by
  intro v k h
  constructor
  · exact bfIter_sound cap v k h
  · rintro w ⟨p, hp, rfl⟩
    obtain ⟨q, hq, hwq, hlq⟩ := path_shorten hclosed p.length p hs (Nat.le_refl _) hp
    obtain ⟨m, hm, hd⟩ := bfIter_le_pathWeight hwf hsrc cap q v hq (by omega)
    rw [h] at hd
    injection hd with h2
    omega

/-- C3: on every graph whose edges stay inside a node set containing the
source and whose round cap covers that set, the Bellman-Ford kernel
records, for every node with a finite result distance, the minimum over
all source-to-target paths of the sum of edge weights; in particular
this holds for every valid source of the generated graph, and on the
hand-constructed edge set `(0,1,2), (1,2,3), (0,2,10)` with source 0 the
kernel returns distance 5 at node 2 (not 10). -/
theorem C3_bellman_ford_shortest_paths :
    (∀ (g : Graph) (s : Nat) (S : List Nat) (res : BFResult),
      WellFormed g → (∀ e ∈ g.edges, e.src ∈ S → e.dst ∈ S) → s ∈ S →
      S.length - 1 ≤ bfCap g s → runBF g s = .ok res →
      ∀ v k, dAt res.dist v = some k →
        IsLeast {w | ∃ p, IsPath g s p v ∧ pathWeight p = w} k) ∧
    (∀ (s : Nat) (res : BFResult), runBF theGraph s = .ok res →
      ∀ v k, dAt res.dist v = some k →
        IsLeast {w | ∃ p, IsPath theGraph s p v ∧ pathWeight p = w} k) ∧
    runBF exampleGraph 0 = .ok ⟨[some 0, some 2, some 5], 1⟩ ∧
    dAt [some 0, some 2, some 5] 2 = some 5 := by
  have hgen : ∀ (g : Graph) (s : Nat) (S : List Nat) (res : BFResult),
      WellFormed g → (∀ e ∈ g.edges, e.src ∈ S → e.dst ∈ S) → s ∈ S →
      S.length - 1 ≤ bfCap g s → runBF g s = .ok res →
      ∀ v k, dAt res.dist v = some k →
        IsLeast {w | ∃ p, IsPath g s p v ∧ pathWeight p = w} k := by
    intro g s S res hwf hclosed hs hcap hrun v k h
    have hsrc : s < g.nodes := by
      by_contra hh
      rw [runBF, if_neg hh] at hrun
      cases hrun
    rw [runBF, if_pos hsrc] at hrun
    have hdist : res.dist = bfIter g (bfCap g s) (distInit g.nodes s) := by
      cases hrun
      exact bfLoop_eq_bfIter g _ 0 _
    rw [hdist] at h
    exact bf_isLeast_core hwf hclosed hs hsrc hcap v k h
  refine ⟨hgen, ?_, by rfl, by rfl⟩
  intro s res hrun v k h
  have hsrc : s < theGraph.nodes := by
    by_contra hh
    rw [runBF, if_neg hh] at hrun
    cases hrun
  have hcl : ∀ e ∈ theGraph.edges,
      theGraph.comp.getD e.src 0 = theGraph.comp.getD e.dst 0 := by
    have h7 := generated_parts.2.2.2.2.2.2.1
    simpa [chkCompClosed, List.all_eq_true] using h7
  have hep : ∀ e ∈ theGraph.edges,
      e.src < theGraph.nodes ∧ e.dst < theGraph.nodes := by
    have h1 := generated_parts.1
    simpa [chkEndpoints, List.all_eq_true] using h1
  have hwfg : WellFormed theGraph := hep
  have hclosed : ∀ e ∈ theGraph.edges,
      e.src ∈ compMembers theGraph (theGraph.comp.getD s 0) →
      e.dst ∈ compMembers theGraph (theGraph.comp.getD s 0) := by
    intro e he hmem
    rw [mem_compMembers] at hmem ⊢
    exact ⟨(hep e he).2, by rw [← hcl e he]; exact hmem.2⟩
  have hsS : s ∈ compMembers theGraph (theGraph.comp.getD s 0) :=
    mem_compMembers.mpr ⟨hsrc, rfl⟩
  exact hgen theGraph s (compMembers theGraph (theGraph.comp.getD s 0)) res
    hwfg hclosed hsS (Nat.le_refl _) hrun v k h

/-- Witness for C3 on the hand-constructed scenario graph. -/
theorem C3_bellman_ford_shortest_paths_witness :
    WellFormed exampleGraph ∧
    (∀ e ∈ exampleGraph.edges, e.src ∈ [0, 1, 2] → e.dst ∈ [0, 1, 2]) ∧
    0 ∈ [0, 1, 2] ∧
    ([0, 1, 2] : List Nat).length - 1 ≤ bfCap exampleGraph 0 ∧
    runBF exampleGraph 0 = .ok ⟨[some 0, some 2, some 5], 1⟩ ∧
    IsLeast {w | ∃ p, IsPath exampleGraph 0 p 2 ∧ pathWeight p = w} 5 := by
  refine ⟨by decide, by decide, by decide, by decide, by rfl, ?_⟩
  exact C3_bellman_ford_shortest_paths.1 exampleGraph 0 [0, 1, 2]
    ⟨[some 0, some 2, some 5], 1⟩ (by decide) (by decide) (by decide)
    (by decide) (by rfl) 2 5 (by rfl)

/-! ## PageRank claim development -/

/-! ## PageRank kernel lemmas -/

/-- Rank lookup in a uniform vector. -/
theorem rAt_replicate (n v : Nat) (a : ℚ) :
    rAt (List.replicate n a) v = if v < n then a else 0 := by
  unfold rAt
  induction n generalizing v with
  | zero => simp
  | succ n ih =>
    cases v with
    | zero => simp [List.replicate_succ]
    | succ v =>
      simp only [List.replicate_succ, List.getD_cons_succ, ih,
        Nat.succ_lt_succ_iff]

/-- Rank lookup in a vector built over the node range. -/
theorem rAt_map_range (f : Nat → ℚ) (n v : Nat) :
    rAt ((List.range n).map f) v = if v < n then f v else 0 := by
  unfold rAt
  rw [List.getD_eq_get?, List.get?_map]
  by_cases hv : v < n
  · rw [if_pos hv, List.get?_range hv]
    rfl
  · rw [if_neg hv, List.get?_eq_none.mpr (by simpa using hv)]
    rfl

/-- List sum as an indexed sum of `rAt` lookups. -/
theorem sum_eq_sum_rAt (r : List ℚ) :
    r.sum = ∑ u ∈ Finset.range r.length, rAt r u := by
  induction r with
  | nil => simp
  | cons a t ih =>
    rw [List.sum_cons, List.length_cons, Finset.sum_range_succ']
    have h1 : ∀ u, rAt (a :: t) (u + 1) = rAt t u := by
      intro u
      unfold rAt
      rw [List.getD_cons_succ]
    have h0 : rAt (a :: t) 0 = a := rfl
    rw [h0]
    calc a + t.sum = t.sum + a := by ring
    _ = (∑ u ∈ Finset.range t.length, rAt t u) + a := by rw [ih]
    _ = (∑ u ∈ Finset.range t.length, rAt (a :: t) (u + 1)) + a := by
          refine congrArg (· + a) ?_
          exact (Finset.sum_congr rfl (fun u _ => (h1 u).symm))

/-- Sum of a function mapped over the node range. -/
theorem sum_map_range (f : Nat → ℚ) (n : Nat) :
    ((List.range n).map f).sum = ∑ i ∈ Finset.range n, f i := by
  induction n with
  | zero => simp
  | succ n ih =>
    rw [List.range_succ, List.map_append, List.sum_append,
      Finset.sum_range_succ, ih]
    simp

/-- Swapping an indexed sum with a list sum. -/
theorem sum_swap_list (l : List Edge) (F : Edge → Nat → ℚ) (n : Nat) :
    ∑ v ∈ Finset.range n, (l.map (fun e => F e v)).sum =
      (l.map (fun e => ∑ v ∈ Finset.range n, F e v)).sum := by
  induction l with
  | nil => simp
  | cons e l ih =>
    simp only [List.map_cons, List.sum_cons, Finset.sum_add_distrib, ih]

/-- Grouping a sum over edges by their source node. -/
theorem edge_group (l : List Edge) (G : Nat → ℚ) (n : Nat)
    (hl : ∀ e ∈ l, e.src < n) :
    (l.map (fun e => G e.src)).sum =
      ∑ u ∈ Finset.range n, (l.countP (fun e => e.src == u) : ℚ) * G u := by
  induction l with
  | nil => simp
  | cons e l ih =>
    rw [List.map_cons, List.sum_cons,
      ih (fun f hf => hl f (List.mem_cons_of_mem e hf))]
    have hcount : ∀ u, ((e :: l).countP (fun f => f.src == u) : ℚ) =
        (l.countP (fun f => f.src == u) : ℚ) + if e.src = u then 1 else 0 := by
      intro u
      rw [List.countP_cons]
      by_cases hu : e.src = u
      · simp [hu]
      · simp [hu, (by simpa using hu : ¬ (e.src == u) = true)]
    calc G e.src + ∑ u ∈ Finset.range n, (l.countP (fun f => f.src == u) : ℚ) * G u
        = (∑ u ∈ Finset.range n, (l.countP (fun f => f.src == u) : ℚ) * G u) +
            (∑ u ∈ Finset.range n, if e.src = u then G u else 0) := by
          rw [Finset.sum_ite_eq, if_pos (Finset.mem_range.mpr (hl e (List.mem_cons_self e l)))]
          ring
      _ = ∑ u ∈ Finset.range n,
            ((l.countP (fun f => f.src == u) : ℚ) * G u + if e.src = u then G u else 0) := by
          rw [Finset.sum_add_distrib]
      _ = ∑ u ∈ Finset.range n, ((e :: l).countP (fun f => f.src == u) : ℚ) * G u := by
          refine Finset.sum_congr rfl (fun u _ => ?_)
          rw [hcount u, add_mul]
          by_cases hu : e.src = u
          · simp [hu]
          · simp [hu]


/-- One PageRank iteration conserves the total rank mass. -/
theorem prStep_sum {g : Graph} {damp : ℚ} (hwf : WellFormed g)
    (hn : 0 < g.nodes) {r : List ℚ} (hlen : r.length = g.nodes)
    (hsum : r.sum = 1) : (prStep g damp r).sum = 1 := by
  have hnq : (g.nodes : ℚ) ≠ 0 := Nat.cast_ne_zero.mpr (by omega)
  have h1 : (prStep g damp r).sum =
      ∑ v ∈ Finset.range g.nodes,
        ((1 - damp) / (g.nodes : ℚ) +
          damp * (danglingMass g r / (g.nodes : ℚ) + inMass g r v)) := by
    rw [prStep, sum_map_range]
  have hswap : ∑ v ∈ Finset.range g.nodes, inMass g r v =
      (g.edges.map (fun e => rAt r e.src / (outdeg g e.src : ℚ))).sum := by
    unfold inMass
    rw [sum_swap_list]
    congr 1
    refine List.map_congr_left (fun e he => ?_)
    rw [Finset.sum_ite_eq]
    rw [if_pos (Finset.mem_range.mpr (hwf e he).2)]
  have hgroup : (g.edges.map (fun e => rAt r e.src / (outdeg g e.src : ℚ))).sum =
      ∑ u ∈ Finset.range g.nodes,
        (outdeg g u : ℚ) * (rAt r u / (outdeg g u : ℚ)) :=
    edge_group g.edges (fun u => rAt r u / (outdeg g u : ℚ)) g.nodes
      (fun e he => (hwf e he).1)
  have hcancel : ∀ u, (outdeg g u : ℚ) * (rAt r u / (outdeg g u : ℚ)) =
      if outdeg g u = 0 then 0 else rAt r u := by
    intro u
    by_cases h0 : outdeg g u = 0
    · simp [h0]
    · rw [if_neg h0]
      have : (outdeg g u : ℚ) ≠ 0 := Nat.cast_ne_zero.mpr h0
      field_simp
  have hrsum : ∑ u ∈ Finset.range g.nodes, rAt r u = 1 := by
    rw [← hlen, ← sum_eq_sum_rAt, hsum]
  have hedge : (g.edges.map (fun e => rAt r e.src / (outdeg g e.src : ℚ))).sum =
      1 - danglingMass g r := by
    rw [hgroup]
    have hsplit : danglingMass g r +
        ∑ u ∈ Finset.range g.nodes, (if outdeg g u = 0 then 0 else rAt r u) = 1 := by
      unfold danglingMass
      rw [← Finset.sum_add_distrib, ← hrsum]
      refine Finset.sum_congr rfl (fun u _ => ?_)
      split <;> ring
    calc ∑ u ∈ Finset.range g.nodes,
          (outdeg g u : ℚ) * (rAt r u / (outdeg g u : ℚ))
        = ∑ u ∈ Finset.range g.nodes, (if outdeg g u = 0 then 0 else rAt r u) :=
          Finset.sum_congr rfl (fun u _ => hcancel u)
      _ = 1 - danglingMass g r := by linarith
  rw [h1, Finset.sum_add_distrib]
  have hc1 : ∑ _v ∈ Finset.range g.nodes, (1 - damp) / (g.nodes : ℚ) =
      1 - damp := by
    rw [Finset.sum_const, Finset.card_range, nsmul_eq_mul]
    field_simp
  have hc2 : ∑ v ∈ Finset.range g.nodes,
      damp * (danglingMass g r / (g.nodes : ℚ) + inMass g r v) =
      damp * (danglingMass g r + (1 - danglingMass g r)) := by
    rw [← Finset.mul_sum]
    congr 1
    rw [Finset.sum_add_distrib, hswap, hedge]
    have : ∑ _v ∈ Finset.range g.nodes, danglingMass g r / (g.nodes : ℚ) =
        danglingMass g r := by
      rw [Finset.sum_const, Finset.card_range, nsmul_eq_mul]
      field_simp
    rw [this]
  rw [hc1, hc2]
  ring

/-- The dangling rank mass is non-negative for a non-negative vector. -/
theorem danglingMass_nonneg {g : Graph} {r : List ℚ}
    (hr : ∀ v, 0 ≤ rAt r v) : 0 ≤ danglingMass g r := by
  unfold danglingMass
  refine Finset.sum_nonneg (fun u _ => ?_)
  split
  · exact hr u
  · exact le_refl 0

/-- One PageRank iteration keeps the rank vector non-negative. -/
theorem prStep_nonneg {g : Graph} {damp : ℚ} {r : List ℚ}
    (hd0 : 0 ≤ damp) (hd1 : damp ≤ 1)
    (hr : ∀ v, 0 ≤ rAt r v) : ∀ v, 0 ≤ rAt (prStep g damp r) v := by
  intro v
  rw [prStep, rAt_map_range]
  split
  · have hnn : (0 : ℚ) ≤ (g.nodes : ℚ) := Nat.cast_nonneg _
    have h1 : 0 ≤ (1 - damp) / (g.nodes : ℚ) :=
      div_nonneg (by linarith) hnn
    have h2 : 0 ≤ danglingMass g r / (g.nodes : ℚ) :=
      div_nonneg (danglingMass_nonneg hr) hnn
    have h3 : 0 ≤ inMass g r v := by
      unfold inMass
      refine List.sum_nonneg (fun x hx => ?_)
      obtain ⟨e, -, rfl⟩ := List.mem_map.mp hx
      split
      · exact div_nonneg (hr e.src) (Nat.cast_nonneg _)
      · exact le_refl 0
    have h4 : 0 ≤ damp * (danglingMass g r / (g.nodes : ℚ) + inMass g r v) :=
      mul_nonneg hd0 (by linarith)
    linarith
  · exact le_refl 0

/-- Length of one PageRank iteration. -/
theorem prStep_length (g : Graph) (damp : ℚ) (r : List ℚ) :
    (prStep g damp r).length = g.nodes := by
  simp [prStep]

/-- Invariant of the PageRank iterates: full length, unit mass,
non-negative entries. -/
theorem prIterate_inv {g : Graph} {damp : ℚ} (hwf : WellFormed g)
    (hn : 0 < g.nodes) (hd0 : 0 ≤ damp) (hd1 : damp ≤ 1) :
    ∀ k, (prIterate g damp k).length = g.nodes ∧
      (prIterate g damp k).sum = 1 ∧
      ∀ v, 0 ≤ rAt (prIterate g damp k) v := by
  intro k
  induction k with
  | zero =>
    refine ⟨by simp [prIterate, prInit], ?_, ?_⟩
    · show (List.replicate g.nodes (1 / (g.nodes : ℚ))).sum = 1
      rw [List.sum_replicate, nsmul_eq_mul]
      have hnq : (g.nodes : ℚ) ≠ 0 := Nat.cast_ne_zero.mpr (by omega)
      field_simp
    · intro v
      show 0 ≤ rAt (List.replicate g.nodes (1 / (g.nodes : ℚ))) v
      rw [rAt_replicate]
      split
      · positivity
      · exact le_refl 0
  | succ k ih =>
    obtain ⟨hlen, hsum, hnn⟩ := ih
    exact ⟨prStep_length g damp _,
      prStep_sum hwf hn hlen hsum,
      prStep_nonneg hd0 hd1 hnn⟩

/-- The convergence loop produces exactly some iterate of the initial
vector. -/
theorem prLoop_ranks {g : Graph} {damp eps : ℚ} :
    ∀ (fuel iters k : Nat),
      ∃ j, j ≤ fuel ∧
        (prLoop g damp eps fuel iters (prIterate g damp k)).ranks =
          prIterate g damp (k + j) := by
  intro fuel
  induction fuel with
  | zero => intro iters k; exact ⟨0, Nat.le_refl _, rfl⟩
  | succ f ih =>
    intro iters k
    simp only [prLoop]
    split
    · exact ⟨1, by omega, rfl⟩
    · have hstep : prStep g damp (prIterate g damp k) =
          prIterate g damp (k + 1) := rfl
      rw [hstep]
      obtain ⟨j, hj, hr⟩ := ih (iters + 1) (k + 1)
      refine ⟨j + 1, by omega, ?_⟩
      rw [hr]
      congr 1
      omega

/-- Every successful PageRank run returns some iterate within the cap. -/
theorem runPR_ranks {g : Graph} {damp eps : ℚ} {maxIter : Nat} {res : PRResult}
    (h : runPR g damp eps maxIter = .ok res) :
    ∃ k, k ≤ maxIter ∧ res.ranks = prIterate g damp k := by
  rw [runPR] at h
  split at h
  · have hinit : prInit g = prIterate g damp 0 := rfl
    injection h with h2
    subst h2
    obtain ⟨j, hj, hr⟩ := @prLoop_ranks g damp eps maxIter 0 0
    rw [hinit]
    exact ⟨j, hj, by simpa using hr⟩
  · cases h

/-- C5: on every graph, after every PageRank iteration (the first
included) the rank vector sums to exactly 1 and is non-negative, the
dangling rank mass being redistributed so total mass is conserved; and
every successful run returns such an iterate. -/
theorem C5_pagerank_mass_conservation (g : Graph) (damp : ℚ)
    (hwf : WellFormed g) (hn : 0 < g.nodes) (hd0 : 0 ≤ damp) (hd1 : damp ≤ 1) :
    (∀ k, (prIterate g damp k).sum = 1 ∧
      ∀ v, 0 ≤ rAt (prIterate g damp k) v) ∧
    (∀ (eps : ℚ) (maxIter : Nat) (res : PRResult),
      runPR g damp eps maxIter = .ok res →
      ∃ k, k ≤ maxIter ∧ res.ranks = prIterate g damp k ∧
        res.ranks.sum = 1 ∧ ∀ v, 0 ≤ rAt res.ranks v) := by
  have hinv := prIterate_inv hwf hn hd0 hd1
  refine ⟨fun k => ⟨(hinv k).2.1, (hinv k).2.2⟩, ?_⟩
  intro eps maxIter res hrun
  obtain ⟨k, hk, hr⟩ := runPR_ranks hrun
  exact ⟨k, hk, hr, by rw [hr]; exact (hinv k).2.1,
    by rw [hr]; exact (hinv k).2.2⟩

/-- Witness for C5 on the scenario graph with the standard damping. -/
theorem C5_pagerank_mass_conservation_witness :
    WellFormed exampleGraph ∧ 0 < exampleGraph.nodes ∧
    0 ≤ DAMPING ∧ DAMPING ≤ 1 ∧
    (prIterate exampleGraph DAMPING 1).sum = 1 :=
  ⟨by decide, by decide, by norm_num [DAMPING], by norm_num [DAMPING],
    ((C5_pagerank_mass_conservation exampleGraph DAMPING (by decide)
      (by decide) (by norm_num [DAMPING]) (by norm_num [DAMPING])).1 1).1⟩

end SMCSim
